import Mathlib

/-!
Verification of the `git-commit-parser` core library and the completion
provider of `vscode-commit-pro`.

The repository ships the public API surface of the parsing library
(`ScanError`, `SyntaxKind`, `ParseError`, `ParseErrorCode`,
`printParseErrorCode`, `NodeType`, `Node`, and the signatures of
`createScanner`, `parseTree`, `visit`, `findNodeAtOffset`) together with the
language-server completion provider.  The bodies of the scanner and parser
modules themselves are not part of the available sources, so the scanner and
parser below are modelled from the specification (grammar, fault-tolerance
policy, disambiguation rules and invariants of sections 4.1-4.5), while the
enumerations, `printParseErrorCode` and the completion provider are direct
embeddings of the shipped TypeScript.
-/

namespace GitCommit



/-- Embedding of `ScanError` from the library surface (`const enum ScanError`). -/
inductive ScanErr where
  | none
  | invalidUnicode
  | invalidCharacter
deriving DecidableEq, Repr

/-- Embedding of `SyntaxKind` from the library surface (`const enum SyntaxKind`). -/
inductive SynKind where
  | whiteSpace
  | wordLiteral
  | numericLiteral
  | openParenToken
  | closeParenToken
  | exclamationMarkToken
  | colonToken
  | hashMarkToken
  | lineBreakToken
  | comment
  | symbol
  | eof
deriving DecidableEq, Repr

/-- Embedding of `ParseErrorCode` from the library surface (`const enum ParseErrorCode`). -/
inductive ParseErrorCode where
  | invalidSymbol
  | invalidNumberFormat
  | propertyNameExpected
  | valueExpected
  | colonExpected
  | commaExpected
  | closeParenExpected
  | closeBracketExpected
  | endOfFileExpected
  | invalidCommentToken
  | unexpectedEndOfComment
  | unexpectedEndOfString
  | unexpectedEndOfNumber
  | invalidUnicode
  | invalidEscapeCharacter
  | invalidCharacter
deriving DecidableEq, Repr

/-- Embedding of `printParseErrorCode` from the library surface: a switch over
the sixteen error codes returning the code's name. -/
def printParseErrorCode : ParseErrorCode → String
  | .invalidSymbol => "InvalidSymbol"
  | .invalidNumberFormat => "InvalidNumberFormat"
  | .propertyNameExpected => "PropertyNameExpected"
  | .valueExpected => "ValueExpected"
  | .colonExpected => "ColonExpected"
  | .commaExpected => "CommaExpected"
  | .closeParenExpected => "CloseParenExpected"
  | .closeBracketExpected => "CloseBracketExpected"
  | .endOfFileExpected => "EndOfFileExpected"
  | .invalidCommentToken => "InvalidCommentToken"
  | .unexpectedEndOfComment => "UnexpectedEndOfComment"
  | .unexpectedEndOfString => "UnexpectedEndOfString"
  | .unexpectedEndOfNumber => "UnexpectedEndOfNumber"
  | .invalidUnicode => "InvalidUnicode"
  | .invalidEscapeCharacter => "InvalidEscapeCharacter"
  | .invalidCharacter => "InvalidCharacter"

/-- Embedding of the `ParseError` record `(error, offset, length)`. -/
structure PError where
  error : ParseErrorCode
  offset : Nat
  length : Nat
deriving DecidableEq, Repr

/-! ### Scanner (modelled from the spec, section 4.1)

Modelled from the spec: the `scanner` module is not among the available
sources; the classification rules below follow section 4.1 of the spec
(letter runs, digit runs, dedicated single-character tokens, line breaks,
comments to end of line, space/tab runs, symbols, control characters
surfaced through the scan error, exhausted input giving EOF). -/

/-- Word characters: letters, as in the spec's "run of letters/word characters". -/
def isWordChar (c : Char) : Bool := c.isAlpha

/-- Blank characters forming WhiteSpace runs (space and tab, never line breaks). -/
def isBlankChar (c : Char) : Bool := c = ' ' || c = '\t'

/-- Disallowed control characters, surfaced as `InvalidCharacter` by the scanner. -/
def isCtrlChar (c : Char) : Bool :=
  decide (c.toNat < 32) && !(c = '\n' || c = '\r' || c = '\t')

/-- Classification of one token at the head of the remaining input.  Given the
first character `c` and the characters after it, returns the token kind, the
number of extra characters consumed beyond `c`, and the scan error.
Modelled from the spec: section 4.1's token classification list. -/
def classify (c : Char) (rest : List Char) : SynKind × Nat × ScanErr :=
  if isWordChar c then (.wordLiteral, (rest.takeWhile isWordChar).length, .none)
  else if c.isDigit then (.numericLiteral, (rest.takeWhile Char.isDigit).length, .none)
  else if c = '(' then (.openParenToken, 0, .none)
  else if c = ')' then (.closeParenToken, 0, .none)
  else if c = '!' then (.exclamationMarkToken, 0, .none)
  else if c = ':' then (.colonToken, 0, .none)
  else if c = '#' then (.comment, (rest.takeWhile (fun x => x ≠ '\n')).length, .none)
  else if c = '\n' then (.lineBreakToken, 0, .none)
  else if c = '\r' then
    (.lineBreakToken, if rest.head? = some '\n' then 1 else 0, .none)
  else if isBlankChar c then (.whiteSpace, (rest.takeWhile isBlankChar).length, .none)
  else if isCtrlChar c then (.symbol, 0, .invalidCharacter)
  else (.symbol, 0, .none)

/-- A token: kind, absolute start offset, the consumed source characters, and
the scan error of the token.  The token length is the number of consumed
characters. -/
structure Token where
  kind : SynKind
  offset : Nat
  chars : List Char
  err : ScanErr
deriving DecidableEq, Repr

/-- Length of a token in characters. -/
def Token.length (t : Token) : Nat := t.chars.length

/-- String value carried by a token (its exact source slice). -/
def Token.str (t : Token) : String := String.mk t.chars

/-- Tokenizer loop: repeatedly classify and consume.  The fuel argument is a
bound on the number of tokens still producible; `tokenize` supplies the
length of the input, which suffices because every token consumes at least
one character. -/
def tokenizeAux : Nat → List Char → Nat → List Token
  | 0, _, _ => []
  | _ + 1, [], _ => []
  | fuel + 1, c :: rest, pos =>
    let k := classify c rest
    let consumed := c :: rest.take k.2.1
    Token.mk k.1 pos consumed k.2.2 ::
      tokenizeAux fuel (rest.drop k.2.1) (pos + consumed.length)

/-- Tokenize a character list starting at offset 0. -/
def tokenize (cs : List Char) : List Token := tokenizeAux cs.length cs 0

/-- Contiguity of a token list: starting from `lo`, each token starts exactly
where the previous one ended. -/
def TokChain : Nat → List Token → Prop
  | _, [] => True
  | lo, t :: ts => t.offset = lo ∧ TokChain (lo + t.length) ts

/-! ### Scanner state machine

Modelled from the spec: `createScanner(text)` returns a cursor-like object;
`scan()` classifies the code point at the current position and advances;
exhausted input yields EOF idempotently. -/

/-- Mutable scanner state: the input, the cursor position, and the data of the
last read token. -/
structure ScannerState where
  text : List Char
  pos : Nat
  token : SynKind
  tokenOffset : Nat
  tokenChars : List Char
  tokenErr : ScanErr
deriving DecidableEq, Repr

/-- Fresh scanner over `text` positioned at offset 0.  A `scan` call is needed
before the token accessors are meaningful; the initial token is EOF-like. -/
def createScanner (text : String) : ScannerState :=
  ScannerState.mk text.toList 0 .eof 0 [] .none

/-- One `scan()` step: classify the code point at the cursor, record the token
data and advance the cursor; on exhausted input report EOF without moving. -/
def scan (s : ScannerState) : ScannerState :=
  match s.text.drop s.pos with
  | [] => ScannerState.mk s.text s.pos .eof s.pos [] .none
  | c :: rest =>
    let k := classify c rest
    let consumed := c :: rest.take k.2.1
    ScannerState.mk s.text (s.pos + consumed.length) k.1 s.pos consumed k.2.2

/-- Whitespace characters of a commit document: space, tab and line breaks. -/
def isWsChar (c : Char) : Bool := c = ' ' || c = '\t' || c = '\n' || c = '\r'

/-- Tokens that carry only whitespace (WhiteSpace and LineBreak kinds). -/
def isWsToken (t : Token) : Bool :=
  t.kind = SynKind.whiteSpace || t.kind = SynKind.lineBreakToken

/-! ### Node model and parser (modelled from the spec, sections 3, 4.2)

Modelled from the spec: the `parser` module is not among the available
sources.  The grammar, the fault-tolerance policy (synthesized zero-length
placeholder nodes plus diagnostics at every missing-token decision point,
resynchronization at line boundaries) and the disambiguation rules follow
sections 4.2 and 4.3 of the spec; the `Node` shape follows the shipped
`Node` interface. -/

/-- Embedding of `NodeType` from the library surface (the closed union of
node type strings). -/
inductive NodeType where
  | message
  | header
  | type
  | scopeParenOpen
  | scope
  | scopeParenClose
  | breakingExclamationMark
  | description
  | body
  | breakingChangeLiteral
  | footer
  | footerWordToken
  | footerWord
  | footerToken
  | word
  | whitespace
  | number
  | symbol
deriving DecidableEq, Repr

/-- Embedding of the `Node` interface: type, optional value, source span,
optional colon offset and owned children.  The non-owning `parent`
back-reference of the TypeScript interface is represented structurally: a
node's parent is the unique node that owns it in `children` (made explicit
by `nodeParentPairs` below). -/
inductive Node where
  | mk (ty : NodeType) (value : Option String) (offset : Nat) (len : Nat)
      (colonOffset : Option Nat) (children : List Node)

/-- Node type accessor. -/
def Node.ty : Node → NodeType
  | .mk t _ _ _ _ _ => t

/-- Node value accessor. -/
def Node.value : Node → Option String
  | .mk _ v _ _ _ _ => v

/-- Node offset accessor. -/
def Node.offset : Node → Nat
  | .mk _ _ o _ _ _ => o

/-- Node length accessor. -/
def Node.len : Node → Nat
  | .mk _ _ _ l _ _ => l

/-- Node colon-offset accessor. -/
def Node.colonOffset : Node → Option Nat
  | .mk _ _ _ _ co _ => co

/-- Node children accessor. -/
def Node.children : Node → List Node
  | .mk _ _ _ _ _ cs => cs

/-- End offset of a node (one past its last character). -/
def Node.endOff (n : Node) : Nat := n.offset + n.len

/-- Leaf node carrying a token's kind-specific node type, its source slice as
value and its exact span. -/
def mkLeaf (ty : NodeType) (t : Token) : Node :=
  .mk ty (some t.str) t.offset t.length none []

/-- Zero-length placeholder node synthesized where an expected token is
missing (spec section 4.2, fault tolerance point (b)). -/
def zeroLeaf (ty : NodeType) (pos : Nat) : Node := .mk ty none pos 0 none []

/-- Generic node type for a token outside any special grammar position. -/
def genericLeafType : SynKind → NodeType
  | .whiteSpace => .whitespace
  | .wordLiteral => .word
  | .numericLiteral => .number
  | .lineBreakToken => .whitespace
  | _ => .symbol

/-- Generic leaf for a token. -/
def genLeaf (t : Token) : Node := mkLeaf (genericLeafType t.kind) t

/-- Generic leaves for a token run. -/
def genLeaves (ts : List Token) : List Node := ts.map genLeaf

/-- Start offset of a node list, with default `d` when empty. -/
def nodesStart (d : Nat) (ns : List Node) : Nat :=
  match ns with
  | [] => d
  | n :: _ => n.offset

/-- End offset of a node list, with default `d` when empty. -/
def nodesEnd (d : Nat) (ns : List Node) : Nat :=
  match ns.getLast? with
  | Option.none => d
  | some n => n.endOff

/-- Composite node spanning its children (zero-length at `d` when childless). -/
def mkComposite (ty : NodeType) (d : Nat) (co : Option Nat) (cs : List Node) : Node :=
  .mk ty none (nodesStart d cs) (nodesEnd d cs - nodesStart d cs) co cs

/-- Start offset of a token list, with default `d` when empty. -/
def tokStart (d : Nat) (ts : List Token) : Nat :=
  match ts with
  | [] => d
  | t :: _ => t.offset

/-- End offset of a token list, with default `d` when empty. -/
def tokEnd (d : Nat) (ts : List Token) : Nat :=
  match ts.getLast? with
  | Option.none => d
  | some t => t.offset + t.length

/-- Result of one header parsing step: produced nodes, diagnostics, the
position after the consumed tokens, the header colon offset if this step
found it, and the unconsumed tokens. -/
structure StepOut where
  nodes : List Node
  errs : List PError
  pos : Nat
  colon : Option Nat
  rest : List Token

/-- Step that consumes nothing. -/
def noStep (lo : Nat) (ts : List Token) : StepOut := ⟨[], [], lo, Option.none, ts⟩

/-- Header step 1: the commit type, a single WordLiteral; a zero-length
placeholder plus a ValueExpected diagnostic when missing. -/
def stepType (lo : Nat) (ts : List Token) : StepOut :=
  match ts with
  | t :: rest =>
    if t.kind = SynKind.wordLiteral then
      ⟨[mkLeaf .type t], [], t.offset + t.length, Option.none, rest⟩
    else ⟨[zeroLeaf .type lo], [⟨.valueExpected, lo, 0⟩], lo, Option.none, ts⟩
  | [] => ⟨[zeroLeaf .type lo], [⟨.valueExpected, lo, 0⟩], lo, Option.none, []⟩

/-- Header step 2: the optional scope.  Recognized only when the next token is
an open parenthesis (spec disambiguation rule); consumes tokens up to the
closing parenthesis, synthesizing a zero-length close-paren placeholder plus
a CloseParenExpected diagnostic when the parenthesis is never closed. -/
def stepScope (lo : Nat) (ts : List Token) : StepOut :=
  match ts with
  | t :: rest =>
    if t.kind = SynKind.openParenToken then
      let inner := rest.takeWhile (fun x => x.kind ≠ SynKind.closeParenToken)
      let after := rest.dropWhile (fun x => x.kind ≠ SynKind.closeParenToken)
      let ie := tokEnd (t.offset + t.length) inner
      let scopeNode := mkComposite .scope (t.offset + t.length) Option.none (genLeaves inner)
      match after with
      | c :: rest2 =>
        ⟨[mkLeaf .scopeParenOpen t, scopeNode, mkLeaf .scopeParenClose c], [],
          c.offset + c.length, Option.none, rest2⟩
      | [] =>
        ⟨[mkLeaf .scopeParenOpen t, scopeNode, zeroLeaf .scopeParenClose ie],
          [⟨.closeParenExpected, ie, 0⟩], ie, Option.none, []⟩
    else noStep lo ts
  | [] => noStep lo ts

/-- Header step 3: the breaking-change marker, recognized only directly before
the header colon (spec disambiguation rule). -/
def stepBang (lo : Nat) (ts : List Token) : StepOut :=
  match ts with
  | a :: b :: rest =>
    if a.kind = SynKind.exclamationMarkToken ∧ b.kind = SynKind.colonToken then
      ⟨[mkLeaf .breakingExclamationMark a], [], a.offset + a.length, Option.none, b :: rest⟩
    else noStep lo ts
  | _ => noStep lo ts

/-- Header step 4: the header colon, recorded in the header's `colonOffset`;
a ColonExpected diagnostic at the current position when missing. -/
def stepColon (lo : Nat) (ts : List Token) : StepOut :=
  match ts with
  | t :: rest =>
    if t.kind = SynKind.colonToken then
      ⟨[mkLeaf .symbol t], [], t.offset + t.length, some t.offset, rest⟩
    else ⟨[], [⟨.colonExpected, lo, 0⟩], lo, Option.none, ts⟩
  | [] => ⟨[], [⟨.colonExpected, lo, 0⟩], lo, Option.none, []⟩

/-- Header step 5: the single whitespace after the colon. -/
def stepWs (lo : Nat) (ts : List Token) : StepOut :=
  match ts with
  | t :: rest =>
    if t.kind = SynKind.whiteSpace then
      ⟨[genLeaf t], [], t.offset + t.length, Option.none, rest⟩
    else noStep lo ts
  | [] => noStep lo ts

/-- Parse the header line: type, optional scope, optional breaking mark,
colon, whitespace, then the rest of the line as the description. -/
def parseHeader (lo : Nat) (ts : List Token) : Node × List PError :=
  let s1 := stepType lo ts
  let s2 := stepScope s1.pos s1.rest
  let s3 := stepBang s2.pos s2.rest
  let s4 := stepColon s3.pos s3.rest
  let s5 := stepWs s4.pos s4.rest
  let desc := mkComposite .description s5.pos Option.none (genLeaves s5.rest)
  (mkComposite .header lo s4.colon
      (s1.nodes ++ s2.nodes ++ s3.nodes ++ s4.nodes ++ s5.nodes ++ [desc]),
    s1.errs ++ s2.errs ++ s3.errs ++ s4.errs ++ s5.errs)

/-- Split off the first line of a token stream, the terminating line-break
token included. -/
def splitLine (ts : List Token) : List Token × List Token :=
  let pre := ts.takeWhile (fun t => t.kind ≠ SynKind.lineBreakToken)
  let rest := ts.dropWhile (fun t => t.kind ≠ SynKind.lineBreakToken)
  match rest with
  | lb :: rest2 => (pre ++ [lb], rest2)
  | [] => (pre, [])

/-- Split a token stream into its lines.  The fuel is a bound on the number of
lines; the token count suffices since every line holds at least one token. -/
def splitLinesAux : Nat → List Token → List (List Token)
  | 0, _ => []
  | _ + 1, [] => []
  | fuel + 1, ts => (splitLine ts).1 :: splitLinesAux fuel (splitLine ts).2

/-- Lines of a token stream. -/
def splitLines (ts : List Token) : List (List Token) := splitLinesAux ts.length ts

/-- A hyphen symbol token, joining the words of a footer token. -/
def isHyphen (t : Token) : Bool := t.kind = SynKind.symbol && t.chars = ['-']

/-- Matcher for the tail of a footer token after its first word: either the
colon (followed by whitespace, a line break or the line end), or a hyphen
and a further word.  Spec section 4.2: footer-token := WordLiteral
('-' WordLiteral)*, immediately followed by `:` and whitespace. -/
def footerRest : Nat → List Token → Bool
  | _, [] => false
  | 0, _ => false
  | fuel + 1, t :: r =>
    if t.kind = SynKind.colonToken then
      match r with
      | [] => true
      | w :: _ => w.kind = SynKind.whiteSpace || w.kind = SynKind.lineBreakToken
    else if isHyphen t then
      match r with
      | w :: r2 => w.kind = SynKind.wordLiteral && footerRest fuel r2
      | [] => false
    else false

/-- Line-start match deciding where the body ends and footers begin: a
hyphenated word sequence followed by a colon and whitespace, or the literal
`BREAKING CHANGE` (the hyphenated literal is covered by the word form). -/
def isFooterStart (ts : List Token) : Bool :=
  (match ts with
   | a :: b :: c :: r =>
     a.kind = SynKind.wordLiteral && a.str = "BREAKING" && b.kind = SynKind.whiteSpace &&
       c.kind = SynKind.wordLiteral && c.str = "CHANGE" && footerRest r.length r
   | _ => false)
  ||
  (match ts with
   | a :: r => a.kind = SynKind.wordLiteral && footerRest r.length r
   | [] => false)

/-- Group the footer-region lines into footers: each footer is one
footer-start line together with the directly following non-footer lines. -/
def chunkFootersAux : Nat → List (List Token) → List (List (List Token))
  | 0, _ => []
  | _ + 1, [] => []
  | fuel + 1, l :: ls =>
    (l :: ls.takeWhile (fun l2 => !isFooterStart l2)) ::
      chunkFootersAux fuel (ls.dropWhile (fun l2 => !isFooterStart l2))

/-- Footer grouping at the top level. -/
def chunkFooters (ls : List (List Token)) : List (List (List Token)) :=
  chunkFootersAux ls.length ls

/-- Leaf inside a footer token: words become footer-word-token leaves. -/
def footerTokLeaf (t : Token) : Node :=
  if t.kind = SynKind.wordLiteral then mkLeaf .footerWordToken t else genLeaf t

/-- Leaf of a footer value: words become footer-word leaves. -/
def footerWordLeaf (t : Token) : Node :=
  if t.kind = SynKind.wordLiteral then mkLeaf .footerWord t else genLeaf t

/-- Build one footer from its tokens: the footer token up to the colon, the
colon itself (recorded in `colonOffset`), then the footer words. -/
def buildFooter (lo : Nat) (ts : List Token) : Node :=
  let pre := ts.takeWhile (fun t => t.kind ≠ SynKind.colonToken)
  let rest := ts.dropWhile (fun t => t.kind ≠ SynKind.colonToken)
  let ftok := mkComposite .footerToken lo Option.none (pre.map footerTokLeaf)
  match rest with
  | c :: rest2 =>
    mkComposite .footer lo (some c.offset) ([ftok, mkLeaf .symbol c] ++ rest2.map footerWordLeaf)
  | [] => mkComposite .footer lo Option.none [ftok]

/-- Build the message part after the header line: the body (all lines before
the first footer-start line) followed by the footers. -/
def buildRest (lo : Nat) (ts : List Token) : List Node :=
  let lines := splitLines ts
  let bodyToks := (lines.takeWhile (fun l => !isFooterStart l)).flatten
  let footLines := lines.dropWhile (fun l => !isFooterStart l)
  let bodyPart :=
    if bodyToks.isEmpty then ([] : List Node)
    else [mkComposite .body lo Option.none (genLeaves bodyToks)]
  bodyPart ++ (chunkFooters footLines).map
    (fun ch => buildFooter (tokStart lo ch.flatten) ch.flatten)

/-- Build the whole message tree: the header from the first line, then the
line break, then body and footers.  The root spans the entire input. -/
def buildMessage (cs : List Char) : Node × List PError :=
  let ts := tokenize cs
  let headerToks := ts.takeWhile (fun t => t.kind ≠ SynKind.lineBreakToken)
  let afterHeader := ts.dropWhile (fun t => t.kind ≠ SynKind.lineBreakToken)
  let hp := parseHeader 0 headerToks
  let restNodes :=
    match afterHeader with
    | lb :: rs => genLeaf lb :: buildRest (lb.offset + lb.length) rs
    | [] => ([] : List Node)
  (Node.mk .message Option.none 0 cs.length Option.none (hp.1 :: restNodes), hp.2)

/-- Parse a document: `none` exactly on a whitespace-only (or empty) token
stream, a full best-effort message tree otherwise, paired with the
accumulated diagnostics (spec section 4.2, "always return a tree"). -/
def parseDoc (cs : List Char) : Option Node × List PError :=
  if (tokenize cs).all isWsToken then (Option.none, [])
  else ((buildMessage cs).1, (buildMessage cs).2)

/-- Embedding of `parseTree(text)`: the resulting root node, if any. -/
def parseTree (text : String) : Option Node := (parseDoc text.toList).1

/-- Diagnostics appended to the caller-supplied error collection by a
`parseTree(text, errors)` call. -/
def parseErrors (text : String) : List PError := (parseDoc text.toList).2

/-! ### Offset queries (modelled from the spec, section 4.5) -/

/-- Containment test of `findNodeAtOffset`: the node's half-open span contains
the offset; when `includeRightBound` is set, a node ending exactly at the
offset is also eligible. -/
def containsOff (n : Node) (off : Nat) (includeRightBound : Bool) : Bool :=
  decide (n.offset ≤ off) &&
    (decide (off < n.endOff) || (includeRightBound && decide (off = n.endOff)))

mutual

/-- Depth-first descent of `findNodeAtOffset`: recurse into the first child
containing the offset, else answer the node itself. -/
def findIn (off : Nat) (b : Bool) : Node → Option Node
  | .mk t v o l co cs =>
    match findInList off b cs with
    | some r => some r
    | Option.none => some (.mk t v o l co cs)

/-- Scan of a child list for the first child containing the offset. -/
def findInList (off : Nat) (b : Bool) : List Node → Option Node
  | [] => Option.none
  | c :: ns => if containsOff c off b then findIn off b c else findInList off b ns
end

/-- Embedding of `findNodeAtOffset(root, offset, includeRightBound)`. -/
def findNodeAtOffset (root : Node) (off : Nat) (b : Bool) : Option Node :=
  if containsOff root off b then findIn off b root else Option.none

/-- Root of a parse, with an empty message fallback (used to name the parsed
root of a concrete document in closed statements). -/
def rootD (text : String) : Node :=
  (parseTree text).getD (Node.mk .message Option.none 0 0 Option.none [])

/-! ### Leaf coverage (round-trip property machinery) -/

mutual

/-- Concatenated source slices of the leaves of a node, in document order.  A
leaf contributes `text[offset, offset + length)`. -/
def leafSlices (cs : List Char) : Node → List Char
  | .mk _ _ o l _ children =>
    match children with
    | [] => (cs.drop o).take l
    | c :: rest => leafSlicesList cs (c :: rest)

/-- Concatenated leaf slices of a node list. -/
def leafSlicesList (cs : List Char) : List Node → List Char
  | [] => []
  | n :: ns => leafSlices cs n ++ leafSlicesList cs ns
end

/-- Concatenated source slices of a token list. -/
def tokSlices (cs : List Char) (ts : List Token) : List Char :=
  ts.flatMap (fun t => (cs.drop t.offset).take t.length)

/-! ### Span invariants (node chains and well-formedness) -/

/-- Chained node list: each node starts no earlier than the running position,
which advances to the node's end; consecutive children therefore never
overlap. -/
def ChainN : Nat → List Node → Prop
  | _, [] => True
  | lo, n :: ns => lo ≤ n.offset ∧ ChainN n.endOff ns

/-- Well-formed node within a document of length `N`: the span stays inside
the document, the children are chained without overlap, and the children are
recursively well-formed. -/
inductive Ok (N : Nat) : Node → Prop where
  | mk : ∀ t v o l co cs, o + l ≤ N → ChainN 0 cs → (∀ c ∈ cs, Ok N c) →
      Ok N (Node.mk t v o l co cs)

/-- Leaf constructors that preserve the token's span and carry no children. -/
def SpanPres (f : Token → Node) : Prop :=
  ∀ t, (f t).offset = t.offset ∧ (f t).len = t.length ∧ (f t).children = []

/-- Specification of a header step at position `lo` within a document of
length `N`: produced nodes chain from `lo` up to the new position, the
remaining tokens chain from the new position, bounds are preserved, and every
produced node is well-formed. -/
def StepSpec (N lo : Nat) (s : StepOut) : Prop :=
  ChainN lo s.nodes ∧ nodesEnd lo s.nodes = s.pos ∧ TokChain s.pos s.rest ∧
    (∀ t ∈ s.rest, t.offset + t.length ≤ N) ∧ s.pos ≤ N ∧ (∀ n ∈ s.nodes, Ok N n)

/-- Additionally, a step preserves the end offset of its token segment. -/
def StepEnd (lo : Nat) (ts : List Token) (s : StepOut) : Prop :=
  tokEnd s.pos s.rest = tokEnd lo ts

/-! ### Parent back-references

The TypeScript `Node.parent` is a non-owning back-reference.  In the
embedding, ownership is structural: `nodeParentPairs` lists every node of a
tree paired with the parent reference it carries (`none` only for the
root). -/

mutual

/-- All nodes of a tree, each paired with its parent reference. -/
def nodeParentPairs (p : Option Node) : Node → List (Node × Option Node)
  | .mk t v o l co cs =>
    (Node.mk t v o l co cs, p) :: nodeParentPairsList (some (.mk t v o l co cs)) cs

/-- All nodes of a forest, each paired with its parent reference. -/
def nodeParentPairsList (p : Option Node) : List Node → List (Node × Option Node)
  | [] => []
  | n :: ns => nodeParentPairs p n ++ nodeParentPairsList p ns
end

/-! ### Visitor mode (modelled from the spec, section 4.3)

Modelled from the spec: `visit` runs the identical grammar machinery and
invokes begin/end callbacks on entry/exit of each grammar construct and a
literal-value callback on each leaf.  The callback sequence of a `visit`
call is modelled as a list of events; replaying it means running the stack
machine `reconstruct` below. -/

/-- One visitor callback: entry of a construct, exit of a construct, or a
literal leaf value. -/
inductive VisitEvent where
  | enter (ty : NodeType) (offset : Nat)
  | leave (value : Option String) (len : Nat) (colonOffset : Option Nat)
  | leaf (ty : NodeType) (value : Option String) (offset : Nat) (len : Nat)
      (colonOffset : Option Nat)
deriving DecidableEq, Repr

mutual

/-- Callback sequence of one node: begin, children, end; a single literal
callback for a leaf. -/
def nodeEvents : Node → List VisitEvent
  | .mk t v o l co cs =>
    match cs with
    | [] => [.leaf t v o l co]
    | c :: rest => .enter t o :: (listEvents (c :: rest) ++ [.leave v l co])

/-- Callback sequence of a forest. -/
def listEvents : List Node → List VisitEvent
  | [] => []
  | n :: ns => nodeEvents n ++ listEvents ns
end

/-- Callback sequence produced by `visit(text, visitor)`: the events of the
tree the grammar machinery builds, nothing for a whitespace-only document. -/
def visitEvents (text : String) : List VisitEvent :=
  match parseTree text with
  | some root => nodeEvents root
  | Option.none => []

/-- Stack machine replaying visitor callbacks into a tree: `enter` pushes an
open construct, a leaf attaches to the open construct, `leave` closes the
top construct and attaches it to its parent (or yields the root). -/
def reconstructAux : List VisitEvent → List (NodeType × Nat × List Node) → Option Node
  | [], _ => Option.none
  | .enter t o :: rest, stack => reconstructAux rest ((t, o, []) :: stack)
  | .leaf t v o l co :: rest, stack =>
    match stack with
    | [] =>
      match rest with
      | [] => some (.mk t v o l co [])
      | _ :: _ => Option.none
    | (t2, o2, cs2) :: s2 =>
      reconstructAux rest ((t2, o2, cs2 ++ [Node.mk t v o l co []]) :: s2)
  | .leave v l co :: rest, stack =>
    match stack with
    | [] => Option.none
    | (t2, o2, cs2) :: s2 =>
      match s2 with
      | [] =>
        match rest with
        | [] => some (.mk t2 v o2 l co cs2)
        | _ :: _ => Option.none
      | (t3, o3, cs3) :: s3 =>
        reconstructAux rest ((t3, o3, cs3 ++ [Node.mk t2 v o2 l co cs2]) :: s3)

/-- Tree reconstructed from a replayed callback sequence. -/
def reconstruct (events : List VisitEvent) : Option Node := reconstructAux events []

/-! ### Completion provider (embedding of `completion-provider.ts`) -/

/-- Completion item kinds used by the provider (`CompletionItemKind`). -/
inductive CompItemKind where
  | enumKind
  | operatorKind
deriving DecidableEq, Repr

/-- An LSP text range, abstracted to its two positions. -/
structure LspRange where
  startPos : Nat
  endPos : Nat
deriving DecidableEq, Repr

/-- An LSP text edit. -/
structure TextEdit where
  range : LspRange
  newText : String
deriving DecidableEq, Repr

/-- A completion item with the fields the provider populates. -/
structure CompletionItem where
  label : String
  kind : CompItemKind
  detail : Option String
  textEdit : Option TextEdit
  sortText : Option String
  insertText : Option String
deriving DecidableEq, Repr

/-- Embedding of `getNewTextEdit`: the parser-supplied range of the node for
the commit position (if any), turned into a text-edit factory. -/
def getNewTextEdit (nodeRange : Option LspRange) (newText : String) : Option TextEdit :=
  match nodeRange with
  | some r => some (TextEdit.mk r newText)
  | Option.none => Option.none

/-- A lint rule entry `[severity, "always"|"never", allowedValues[]]`, each
component possibly absent. -/
structure RuleEntry where
  severity : Option Nat
  condition : Option String
  values : Option (List String)
deriving DecidableEq, Repr

/-- The rules the provider reads: `type-enum` and `scope-enum`. -/
structure LintConfig where
  typeEnum : Option RuleEntry
  scopeEnum : Option RuleEntry
deriving DecidableEq, Repr

/-- Embedding of `ConfigSet` as consumed by the provider. -/
structure ConfigSet where
  config : Option LintConfig
  workspaceUri : Option String
deriving DecidableEq, Repr

/-- Header data of a parse outcome as consumed by the provider. -/
structure Header where
  type : Option String
  scope : Option String
  breakingExclamationMark : Bool
deriving DecidableEq, Repr

/-- Embedding of `ParseOutcome` as consumed by the provider. -/
structure ParseOutcome where
  header : Option Header
deriving DecidableEq, Repr

/-- One ranked record of the git-history service (`{type, count, lastUsed}`). -/
structure TypeDatum where
  type : String
  count : Nat
  lastUsed : String
deriving DecidableEq, Repr

/-- One ranked scope record of the git-history service. -/
structure ScopeDatum where
  scope : String
  count : Nat
  lastUsed : String
deriving DecidableEq, Repr

/-- JavaScript `String.prototype.padStart(3, '0')`. -/
def padStart3 (s : String) : String :=
  if 3 ≤ s.length then s else String.mk (List.replicate (3 - s.length) '0') ++ s

/-- The provider's sortText: `999 - count` (as a JavaScript number, so it can
go negative) padded to three characters, a dash, then the padded index. -/
def sortTextFor (count index : Nat) : String :=
  padStart3 (toString ((999 : Int) - (count : Int))) ++ "-" ++ padStart3 (toString index)

/-- JavaScript truthiness of the optional `header?.scope` string. -/
def hasScopeB (po : ParseOutcome) : Bool :=
  match po.header with
  | some h =>
    (match h.scope with
     | some s => s ≠ ""
     | Option.none => false)
  | Option.none => false

/-- Truthiness of `header?.breakingExclamationMark`. -/
def hasBreakingB (po : ParseOutcome) : Bool :=
  match po.header with
  | some h => h.breakingExclamationMark
  | Option.none => false

/-- Embedding of `getCompletionTypes`.  The async git-history lookup is passed
in as `typeData`; the parser range lookup as `typeRange`. -/
def getCompletionTypes (configSet : ConfigSet) (typeRange : Option LspRange)
    (parseOutcome : ParseOutcome) (typeData : List TypeDatum) : List CompletionItem :=
  let typeEnumRule := configSet.config.bind LintConfig.typeEnum
  let ruleDisabled := (typeEnumRule.bind RuleEntry.severity).getD 0 = 0
  let ruleAlways := typeEnumRule.bind RuleEntry.condition = some "always"
  let typeEnumValues := (typeEnumRule.bind RuleEntry.values).getD []
  if ¬ruleDisabled ∧ ruleAlways ∧ 0 < typeEnumValues.length then
    (typeEnumValues.map (fun ty => CompletionItem.mk ty .enumKind Option.none
        (getNewTextEdit typeRange ty) Option.none Option.none)).flatMap
      (fun completion =>
        if ¬hasScopeB parseOutcome ∧ ¬hasBreakingB parseOutcome ∧
            parseOutcome.header.bind Header.type = some completion.label then
          [completion,
           CompletionItem.mk (completion.label ++ "!") .operatorKind Option.none
             (getNewTextEdit typeRange (completion.label ++ "!")) Option.none Option.none]
        else [completion])
  else
    if configSet.workspaceUri.isSome ∧ 0 < typeData.length then
      typeData.mapIdx (fun index d => CompletionItem.mk d.type .enumKind
        (some ("From git log introspection: " ++ toString d.count ++
          " times used, last time " ++ d.lastUsed))
        (getNewTextEdit typeRange d.type)
        (some (sortTextFor d.count index)) Option.none)
    else []

/-- Embedding of `getCompletionScopes`: no severity or condition check (the
source carries a TODO there), only non-emptiness of the allowed values. -/
def getCompletionScopes (configSet : ConfigSet) (scopeRange : Option LspRange)
    (scopeData : List ScopeDatum) : List CompletionItem :=
  let scopeEnumRule := configSet.config.bind LintConfig.scopeEnum
  let scopeEnumValues := (scopeEnumRule.bind RuleEntry.values).getD []
  if 0 < scopeEnumValues.length then
    scopeEnumValues.map (fun scope => CompletionItem.mk scope .enumKind Option.none
      (getNewTextEdit scopeRange scope) Option.none Option.none)
  else
    if configSet.workspaceUri.isSome ∧ 0 < scopeData.length then
      scopeData.mapIdx (fun index d => CompletionItem.mk d.scope .enumKind
        (some ("From git log introspection: " ++ toString d.count ++
          " times used, last time " ++ d.lastUsed))
        (getNewTextEdit scopeRange d.scope)
        (some (sortTextFor d.count index)) Option.none)
    else []

/-- Embedding of `getCompletionBreakingExclamationMark`. -/
def getCompletionBreakingExclamationMark (_configSet : ConfigSet)
    (parseOutcome : ParseOutcome) : List CompletionItem :=
  if hasBreakingB parseOutcome then []
  else [CompletionItem.mk "Breaking Change \"!\"" .operatorKind Option.none Option.none
    Option.none (some "!")]

/-!
Theorems: the properties of the embedded scanner, parser, queries and
completion provider, ending with the claim theorems and their witnesses.
-/

/-- Concatenating the consumed characters of all tokens reproduces the input. -/
theorem tokenizeAux_chars (fuel : Nat) :
    ∀ (cs : List Char) (pos : Nat), cs.length ≤ fuel →
      (tokenizeAux fuel cs pos).flatMap Token.chars = cs := by
  induction fuel with
  | zero =>
    intro cs pos h
    rw [Nat.le_zero, List.length_eq_zero] at h
    subst h
    rfl
  | succ fuel ih =>
    intro cs pos h
    match cs with
    | [] => rfl
    | c :: rest =>
      simp only [tokenizeAux, List.flatMap_cons]
      rw [ih (rest.drop (classify c rest).2.1) _ ?_]
      · simp [List.take_append_drop]
      · calc (rest.drop (classify c rest).2.1).length ≤ rest.length := by
              simp [List.length_drop]
          _ ≤ fuel := by
              have := h
              simp only [List.length_cons] at this
              omega

/-- Tokens produced from `cs` tile the input exactly. -/
theorem tokenize_chars (cs : List Char) : (tokenize cs).flatMap Token.chars = cs :=
  tokenizeAux_chars cs.length cs 0 (Nat.le_refl _)

/-- The tokenizer produces a contiguous token chain starting at `pos`. -/
theorem tokenizeAux_chain (fuel : Nat) :
    ∀ (cs : List Char) (pos : Nat), TokChain pos (tokenizeAux fuel cs pos) := by
  induction fuel with
  | zero => intro cs pos; trivial
  | succ fuel ih =>
    intro cs pos
    match cs with
    | [] => trivial
    | c :: rest =>
      refine ⟨rfl, ?_⟩
      exact ih (rest.drop (classify c rest).2.1) _

/-- The token stream of any input is contiguous from offset 0. -/
theorem tokenize_chain (cs : List Char) : TokChain 0 (tokenize cs) :=
  tokenizeAux_chain cs.length cs 0

/-- Every token consumes at least one character. -/
theorem tokenizeAux_pos (fuel : Nat) (cs : List Char) (pos : Nat) :
    ∀ t ∈ tokenizeAux fuel cs pos, 1 ≤ t.length := by
  induction fuel generalizing cs pos with
  | zero => intro t ht; cases ht
  | succ fuel ih =>
    match cs with
    | [] => intro t ht; cases ht
    | c :: rest =>
      intro t ht
      rcases List.mem_cons.mp ht with h1 | h2
      · subst h1; simp [Token.length]
      · exact ih _ _ t h2

theorem scan_progress (s : ScannerState) (h : s.pos < s.text.length) :
    s.pos < (scan s).pos ∧ (scan s).pos ≤ s.text.length := by
  have hd : s.text.drop s.pos ≠ [] := by
    intro hc
    have := List.length_drop s.pos s.text
    rw [hc] at this
    simp at this
    omega
  match hm : s.text.drop s.pos with
  | [] => exact absurd hm hd
  | c :: rest =>
    have hlen : s.text.length - s.pos = rest.length + 1 := by
      have := List.length_drop s.pos s.text
      rw [hm] at this
      simp at this
      omega
    constructor
    · simp [scan, hm]
    · simp only [scan, hm]
      have htake : (rest.take (classify c rest).2.1).length ≤ rest.length := by
        simp [List.length_take]
      simp only [List.length_cons]
      omega

theorem scan_eof (s : ScannerState) (h : s.text.length ≤ s.pos) :
    (scan s).token = .eof ∧ (scan s).pos = s.pos := by
  have hd : s.text.drop s.pos = [] := by
    apply List.eq_nil_of_length_eq_zero
    simp [List.length_drop]
    omega
  simp [scan, hd]

theorem scan_text (s : ScannerState) : (scan s).text = s.text := by
  unfold scan
  match s.text.drop s.pos with
  | [] => rfl
  | c :: rest => rfl

theorem scan_eof_forever (s : ScannerState) (h : s.text.length ≤ s.pos) :
    ∀ n, 1 ≤ n → (scan^[n] s).token = .eof := by
  intro n hn
  induction n generalizing s with
  | zero => omega
  | succ m ih =>
    rw [Function.iterate_succ_apply]
    rcases Nat.eq_zero_or_pos m with hm | hm
    · subst hm
      simpa using (scan_eof s h).1
    · apply ih
      · rw [scan_text, (scan_eof s h).2]; exact h
      · omega

theorem take_takeWhile_length (q : Char → Bool) (l : List Char) :
    l.take (l.takeWhile q).length = l.takeWhile q := by
  induction l with
  | nil => rfl
  | cons a l ih =>
    by_cases h : q a
    · simp [List.takeWhile_cons, h, ih]
    · simp [List.takeWhile_cons, h]

theorem all_of_all_takeWhile (q p : Char → Bool) (l : List Char)
    (himp : ∀ c, q c = true → p c = true) : (l.takeWhile q).all p = true := by
  rw [List.all_eq_true]
  intro c hc
  exact himp c (List.mem_takeWhile_imp hc)

/-- On a whitespace character, classification yields a WhiteSpace or LineBreak
token whose consumed extra characters are all whitespace. -/
theorem classify_ws (c : Char) (rest : List Char) (h : isWsChar c = true) :
    ((classify c rest).1 = SynKind.whiteSpace ∨ (classify c rest).1 = SynKind.lineBreakToken) ∧
      (rest.take (classify c rest).2.1).all isWsChar = true := by
  have hblank : ∀ x, isBlankChar x = true → isWsChar x = true := by
    intro x hx
    simp only [isBlankChar, Bool.or_eq_true, decide_eq_true_eq] at hx
    rcases hx with h1 | h1 <;> simp [isWsChar, h1]
  simp only [isWsChar, Bool.or_eq_true, decide_eq_true_eq] at h
  rcases h with ((h1 | h1) | h1) | h1 <;> subst h1
  · refine ⟨Or.inl rfl, ?_⟩
    show (rest.take (rest.takeWhile isBlankChar).length).all isWsChar = true
    rw [take_takeWhile_length]
    exact all_of_all_takeWhile _ _ _ hblank
  · refine ⟨Or.inl rfl, ?_⟩
    show (rest.take (rest.takeWhile isBlankChar).length).all isWsChar = true
    rw [take_takeWhile_length]
    exact all_of_all_takeWhile _ _ _ hblank
  · exact ⟨Or.inr rfl, by show (rest.take 0).all isWsChar = true; simp⟩
  · refine ⟨Or.inr rfl, ?_⟩
    show (rest.take (if rest.head? = some '\n' then 1 else 0)).all isWsChar = true
    by_cases hh : rest.head? = some '\n'
    · rw [if_pos hh]
      match rest, hh with
      | x :: tl, hh =>
        simp only [List.head?_cons, Option.some.injEq] at hh
        subst hh
        simp [isWsChar]
    · rw [if_neg hh]
      simp

/-- On a non-whitespace character, classification never yields a WhiteSpace or
LineBreak token. -/
theorem classify_nonws (c : Char) (rest : List Char) (h : isWsChar c = false) :
    (classify c rest).1 ≠ SynKind.whiteSpace ∧ (classify c rest).1 ≠ SynKind.lineBreakToken := by
  simp only [isWsChar, Bool.or_eq_false_iff, decide_eq_false_iff_not] at h
  obtain ⟨⟨⟨hsp, htb⟩, hlf⟩, hcr⟩ := h
  unfold classify
  split_ifs with h1 h2 h3 h4 h5 h6 h7 h8 h9 <;>
    simp_all [isBlankChar]

/-- The token stream consists solely of whitespace-kind tokens exactly when the
input consists solely of whitespace characters. -/
theorem tokenizeAux_wsOnly (fuel : Nat) :
    ∀ (cs : List Char) (pos : Nat), cs.length ≤ fuel →
      (tokenizeAux fuel cs pos).all isWsToken = cs.all isWsChar := by
  induction fuel with
  | zero =>
    intro cs pos h
    rw [Nat.le_zero, List.length_eq_zero] at h
    subst h
    rfl
  | succ fuel ih =>
    intro cs pos h
    match cs with
    | [] => rfl
    | c :: rest =>
      simp only [tokenizeAux, List.all_cons]
      rw [ih (rest.drop (classify c rest).2.1) _
        (by simp only [List.length_cons] at h; simp [List.length_drop]; omega)]
      have hsplit : rest.all isWsChar =
          ((rest.take (classify c rest).2.1).all isWsChar &&
           (rest.drop (classify c rest).2.1).all isWsChar) := by
        conv_lhs => rw [← List.take_append_drop (classify c rest).2.1 rest,
          List.all_append]
      by_cases hws : isWsChar c = true
      · obtain ⟨hkind, htake⟩ := classify_ws c rest hws
        have htok : isWsToken (Token.mk (classify c rest).1 pos
            (c :: rest.take (classify c rest).2.1) (classify c rest).2.2) = true := by
          rcases hkind with h1 | h1 <;> simp [isWsToken, h1]
        simp [htok, hws, hsplit, htake]
      · obtain ⟨hk1, hk2⟩ := classify_nonws c rest (by simpa using hws)
        have htok : isWsToken (Token.mk (classify c rest).1 pos
            (c :: rest.take (classify c rest).2.1) (classify c rest).2.2) = false := by
          simp [isWsToken, hk1, hk2]
        simp only [List.all_cons, htok, Bool.false_and]
        rw [show isWsChar c = false by simpa using hws]
        simp

/-- Whitespace-only characterization at the top level. -/
theorem tokenize_wsOnly (cs : List Char) :
    (tokenize cs).all isWsToken = cs.all isWsChar :=
  tokenizeAux_wsOnly cs.length cs 0 (Nat.le_refl _)

/-- On a disallowed control character the scanner still advances and surfaces
the InvalidCharacter scan error rather than raising. -/
theorem classify_ctrl (c : Char) (rest : List Char) (h : isCtrlChar c = true) :
    classify c rest = (SynKind.symbol, 0, ScanErr.invalidCharacter) := by
  have hlt : c.toNat < 32 ∧ ¬(c = '\n') ∧ ¬(c = '\r') ∧ ¬(c = '\t') := by
    simp only [isCtrlChar, Bool.and_eq_true, decide_eq_true_eq, Bool.not_eq_true',
      Bool.or_eq_false_iff, decide_eq_false_iff_not] at h
    tauto
  have halpha : isWordChar c = false := by
    simp only [isWordChar, Char.isAlpha, Char.isUpper, Char.isLower]
    simp only [Bool.or_eq_false_iff, Bool.and_eq_false_iff]
    constructor
    · left
      simp only [decide_eq_false_iff_not, Char.le_def]
      intro hc
      have hle : ('A' : Char).toNat ≤ c.toNat := hc
      have hv : ('A' : Char).toNat = 65 := rfl
      omega
    · left
      simp only [decide_eq_false_iff_not, Char.le_def]
      intro hc
      have hle : ('a' : Char).toNat ≤ c.toNat := hc
      have hv : ('a' : Char).toNat = 97 := rfl
      omega
  have hdigit : c.isDigit = false := by
    simp only [Char.isDigit, Bool.and_eq_false_iff]
    left
    simp only [decide_eq_false_iff_not, Char.le_def]
    intro hc
    have hle : ('0' : Char).toNat ≤ c.toNat := hc
    have hv : ('0' : Char).toNat = 48 := rfl
    omega
  unfold classify
  rw [if_neg (by simp [halpha]), if_neg (by simp [hdigit])]
  rw [if_neg ?hp1, if_neg ?hp2, if_neg ?hp3, if_neg ?hp4, if_neg ?hp5,
    if_neg hlt.2.1, if_neg hlt.2.2.1, if_neg ?hp6, if_pos h]
  case hp1 => intro hc; subst hc; simp [isCtrlChar] at h
  case hp2 => intro hc; subst hc; simp [isCtrlChar] at h
  case hp3 => intro hc; subst hc; simp [isCtrlChar] at h
  case hp4 => intro hc; subst hc; simp [isCtrlChar] at h
  case hp5 => intro hc; subst hc; simp [isCtrlChar] at h
  case hp6 =>
    simp only [isBlankChar, Bool.or_eq_false_iff, decide_eq_false_iff_not, Bool.not_eq_true]
    constructor
    · intro hc; subst hc; simp [isCtrlChar] at h
    · exact hlt.2.2.2

theorem scan_ctrl (s : ScannerState) (c : Char) (rest : List Char)
    (hdrop : s.text.drop s.pos = c :: rest) (hc : isCtrlChar c = true) :
    (scan s).tokenErr = ScanErr.invalidCharacter := by
  simp [scan, hdrop, classify_ctrl c rest hc]

/-- Structural induction for `Node` with a membership hypothesis over the
children list. -/
theorem Node.recMem {motive : Node → Prop}
    (h : ∀ t v o l co cs, (∀ c ∈ cs, motive c) → motive (Node.mk t v o l co cs))
    (n : Node) : motive n :=
  @Node.rec motive (fun cs => ∀ c ∈ cs, motive c)
    (fun t v o l co cs ih => h t v o l co cs ih)
    (fun c hc => absurd hc (List.not_mem_nil c))
    (fun c cs hc hcs d hd => by
      rcases List.mem_cons.mp hd with h1 | h2
      · exact h1 ▸ hc
      · exact hcs d h2) n

theorem findIn_contains (off : Nat) (b : Bool) (n : Node) :
    containsOff n off b = true →
      ∀ r, findIn off b n = some r → containsOff r off b = true := by
  induction n using Node.recMem with
  | h t v o l co cs ih =>
    intro hc r hr
    simp only [findIn] at hr
    revert hr
    have : ∀ r, findInList off b cs = some r → containsOff r off b = true := by
      clear hc
      induction cs with
      | nil => intro r hr; simp [findInList] at hr
      | cons c ns ihl =>
        intro r hr
        simp only [findInList] at hr
        by_cases hcc : containsOff c off b = true
        · rw [if_pos hcc] at hr
          exact ih c (List.mem_cons_self c ns) hcc r hr
        · rw [if_neg hcc] at hr
          exact ihl (fun d hd => ih d (List.mem_cons_of_mem c hd)) r hr
    match hfl : findInList off b cs with
    | some r2 =>
      intro hr
      rw [Option.some.injEq] at hr
      exact hr ▸ this r2 hfl
    | Option.none =>
      intro hr
      rw [Option.some.injEq] at hr
      exact hr ▸ hc

/-- The result of `findNodeAtOffset` always satisfies the containment test. -/
theorem findNodeAtOffset_contains (root : Node) (off : Nat) (b : Bool) (r : Node)
    (h : findNodeAtOffset root off b = some r) : containsOff r off b = true := by
  unfold findNodeAtOffset at h
  by_cases hc : containsOff root off b = true
  · rw [if_pos hc] at h
    exact findIn_contains off b root hc r h
  · rw [if_neg hc] at h
    cases h

/-- With `includeRightBound = false` the result's span extends strictly past
the query offset: a node ending exactly at the offset is never returned. -/
theorem findNodeAtOffset_strict (root : Node) (off : Nat) (r : Node)
    (h : findNodeAtOffset root off false = some r) : off < r.endOff := by
  have := findNodeAtOffset_contains root off false r h
  simp only [containsOff, Bool.false_and, Bool.or_false, Bool.and_eq_true,
    decide_eq_true_eq] at this
  exact this.2

theorem drop_min_length (e : Nat) (l : List Char) : l.drop (min e l.length) = l.drop e := by
  rcases Nat.le_total e l.length with h | h
  · rw [Nat.min_eq_left h]
  · rw [Nat.min_eq_right h, List.drop_of_length_le h, List.drop_of_length_le]
    omega

theorem take_min_length (e : Nat) (l : List Char) : l.take (min e l.length) = l.take e := by
  rw [List.take_eq_take]
  omega

/-- Every token produced by the tokenizer slices back to its own characters. -/
theorem tokenizeAux_slice (fuel : Nat) :
    ∀ (cs : List Char) (pos : Nat) (cs0 : List Char), cs0.drop pos = cs →
      ∀ t ∈ tokenizeAux fuel cs pos, (cs0.drop t.offset).take t.length = t.chars := by
  induction fuel with
  | zero => intro cs pos cs0 h0 t ht; cases ht
  | succ fuel ih =>
    intro cs pos cs0 h0 t ht
    match cs, h0 with
    | [], _ => cases ht
    | c :: rest, h0 =>
      rcases List.mem_cons.mp ht with h1 | h2
      · subst h1
        simp only [Token.length]
        rw [h0]
        simp only [List.length_cons, List.length_take]
        rw [List.take_succ_cons]
        congr 1
        rw [take_min_length]
      · refine ih _ _ cs0 ?_ t h2
        rw [← List.drop_drop, h0]
        simp only [List.length_cons, List.length_take, List.drop_succ_cons]
        rw [drop_min_length]

/-- Slices of the full token stream reassemble the input. -/
theorem tokSlices_tokenize (cs : List Char) : tokSlices cs (tokenize cs) = cs := by
  unfold tokSlices
  have h := tokenizeAux_slice cs.length cs 0 cs rfl
  calc (tokenize cs).flatMap (fun t => (cs.drop t.offset).take t.length)
      = (tokenize cs).flatMap Token.chars := by
        apply List.flatMap_congr
        intro t ht
        exact h t ht
    _ = cs := tokenize_chars cs

theorem leafSlicesList_append (cs : List Char) (a b : List Node) :
    leafSlicesList cs (a ++ b) = leafSlicesList cs a ++ leafSlicesList cs b := by
  induction a with
  | nil => rfl
  | cons n ns ih =>
    simp only [List.cons_append, leafSlicesList, List.append_eq, ih, List.append_assoc]

theorem leafSlices_mkLeaf (cs : List Char) (ty : NodeType) (t : Token) :
    leafSlices cs (mkLeaf ty t) = (cs.drop t.offset).take t.length := rfl

theorem leafSlices_zeroLeaf (cs : List Char) (ty : NodeType) (pos : Nat) :
    leafSlices cs (zeroLeaf ty pos) = [] := by
  simp [zeroLeaf, leafSlices]

theorem leafSlices_mkComposite (cs : List Char) (ty : NodeType) (d : Nat)
    (co : Option Nat) (children : List Node) :
    leafSlices cs (mkComposite ty d co children) = leafSlicesList cs children := by
  match children with
  | [] =>
    show (cs.drop (nodesStart d [])).take (nodesEnd d [] - nodesStart d []) = _
    simp [nodesStart, nodesEnd, leafSlicesList]
  | c :: rest => rfl

theorem leafSlicesList_map (cs : List Char) (f : Token → Node) (ts : List Token)
    (hf : ∀ t, leafSlices cs (f t) = (cs.drop t.offset).take t.length) :
    leafSlicesList cs (ts.map f) = tokSlices cs ts := by
  induction ts with
  | nil => rfl
  | cons t ts ih =>
    simp only [List.map_cons, leafSlicesList, ih, tokSlices, List.flatMap_cons, hf]

theorem leafSlices_genLeaf (cs : List Char) (t : Token) :
    leafSlices cs (genLeaf t) = (cs.drop t.offset).take t.length := rfl

theorem leafSlicesList_genLeaves (cs : List Char) (ts : List Token) :
    leafSlicesList cs (genLeaves ts) = tokSlices cs ts :=
  leafSlicesList_map cs genLeaf ts (leafSlices_genLeaf cs)

theorem leafSlices_footerTokLeaf (cs : List Char) (t : Token) :
    leafSlices cs (footerTokLeaf t) = (cs.drop t.offset).take t.length := by
  unfold footerTokLeaf
  split_ifs <;> rfl

theorem leafSlices_footerWordLeaf (cs : List Char) (t : Token) :
    leafSlices cs (footerWordLeaf t) = (cs.drop t.offset).take t.length := by
  unfold footerWordLeaf
  split_ifs <;> rfl

theorem tokSlices_append (cs : List Char) (a b : List Token) :
    tokSlices cs (a ++ b) = tokSlices cs a ++ tokSlices cs b := by
  simp [tokSlices]

theorem tokSlices_cons (cs : List Char) (t : Token) (ts : List Token) :
    tokSlices cs (t :: ts) = (cs.drop t.offset).take t.length ++ tokSlices cs ts := rfl

theorem stepType_slices (cs : List Char) (lo : Nat) (ts : List Token) :
    leafSlicesList cs (stepType lo ts).nodes ++ tokSlices cs (stepType lo ts).rest =
      tokSlices cs ts := by
  match ts with
  | [] => simp [stepType, leafSlicesList, leafSlices_zeroLeaf, tokSlices]
  | t :: rest =>
    simp only [stepType]
    split_ifs
    · simp [leafSlicesList, leafSlices_mkLeaf, tokSlices_cons]
    · simp [leafSlicesList, leafSlices_zeroLeaf]

theorem stepScope_slices (cs : List Char) (lo : Nat) (ts : List Token) :
    leafSlicesList cs (stepScope lo ts).nodes ++ tokSlices cs (stepScope lo ts).rest =
      tokSlices cs ts := by
  match ts with
  | [] => rfl
  | t :: rest =>
    have hsplit := (List.takeWhile_append_dropWhile (fun x => x.kind ≠ SynKind.closeParenToken) (rest)).symm
    simp only [stepScope]
    split_ifs with hk
    · cases hdw : rest.dropWhile (fun x => x.kind ≠ SynKind.closeParenToken) with
      | nil =>
        rw [hdw] at hsplit
        simp only [List.append_nil] at hsplit
        simp only [leafSlicesList, leafSlices_mkLeaf, leafSlices_mkComposite,
          leafSlicesList_genLeaves, leafSlices_zeroLeaf, List.append_nil]
        conv_rhs => rw [tokSlices_cons, hsplit]
        simp [tokSlices]
      | cons c rest2 =>
        rw [hdw] at hsplit
        simp only [leafSlicesList, leafSlices_mkLeaf, leafSlices_mkComposite,
          leafSlicesList_genLeaves, List.append_nil]
        conv_rhs => rw [tokSlices_cons, hsplit, tokSlices_append, tokSlices_cons]
        simp [List.append_assoc]
    · rfl

theorem stepBang_slices (cs : List Char) (lo : Nat) (ts : List Token) :
    leafSlicesList cs (stepBang lo ts).nodes ++ tokSlices cs (stepBang lo ts).rest =
      tokSlices cs ts := by
  match ts with
  | [] => rfl
  | [a] => rfl
  | a :: b :: rest =>
    simp only [stepBang]
    split_ifs
    · simp [leafSlicesList, leafSlices_mkLeaf, tokSlices_cons]
    · rfl

theorem stepColon_slices (cs : List Char) (lo : Nat) (ts : List Token) :
    leafSlicesList cs (stepColon lo ts).nodes ++ tokSlices cs (stepColon lo ts).rest =
      tokSlices cs ts := by
  match ts with
  | [] => rfl
  | t :: rest =>
    simp only [stepColon]
    split_ifs
    · simp [leafSlicesList, leafSlices_mkLeaf, tokSlices_cons]
    · rfl

theorem stepWs_slices (cs : List Char) (lo : Nat) (ts : List Token) :
    leafSlicesList cs (stepWs lo ts).nodes ++ tokSlices cs (stepWs lo ts).rest =
      tokSlices cs ts := by
  match ts with
  | [] => rfl
  | t :: rest =>
    simp only [stepWs]
    split_ifs
    · simp [leafSlicesList, leafSlices_genLeaf, tokSlices_cons]
    · rfl

theorem parseHeader_slices (cs : List Char) (lo : Nat) (ts : List Token) :
    leafSlices cs (parseHeader lo ts).1 = tokSlices cs ts := by
  unfold parseHeader
  simp only [leafSlices_mkComposite, leafSlicesList_append]
  conv_rhs => rw [← stepType_slices cs lo ts]
  conv_rhs => rw [← stepScope_slices cs (stepType lo ts).pos (stepType lo ts).rest]
  conv_rhs => rw [← stepBang_slices cs (stepScope (stepType lo ts).pos (stepType lo ts).rest).pos
    (stepScope (stepType lo ts).pos (stepType lo ts).rest).rest]
  conv_rhs => rw [← stepColon_slices cs (stepBang (stepScope (stepType lo ts).pos
      (stepType lo ts).rest).pos (stepScope (stepType lo ts).pos (stepType lo ts).rest).rest).pos
    (stepBang (stepScope (stepType lo ts).pos (stepType lo ts).rest).pos
      (stepScope (stepType lo ts).pos (stepType lo ts).rest).rest).rest]
  conv_rhs => rw [← stepWs_slices cs (stepColon (stepBang (stepScope (stepType lo ts).pos
      (stepType lo ts).rest).pos (stepScope (stepType lo ts).pos
      (stepType lo ts).rest).rest).pos (stepBang (stepScope (stepType lo ts).pos
      (stepType lo ts).rest).pos (stepScope (stepType lo ts).pos
      (stepType lo ts).rest).rest).rest).pos
    (stepColon (stepBang (stepScope (stepType lo ts).pos (stepType lo ts).rest).pos
      (stepScope (stepType lo ts).pos (stepType lo ts).rest).rest).pos
      (stepBang (stepScope (stepType lo ts).pos (stepType lo ts).rest).pos
        (stepScope (stepType lo ts).pos (stepType lo ts).rest).rest).rest).rest]
  simp only [leafSlicesList, leafSlices_mkComposite, leafSlicesList_genLeaves,
    List.append_nil, List.append_assoc]

theorem splitLine_join (ts : List Token) : (splitLine ts).1 ++ (splitLine ts).2 = ts := by
  unfold splitLine
  cases hdw : ts.dropWhile (fun t => t.kind ≠ SynKind.lineBreakToken) with
  | nil =>
    simp only [List.append_nil]
    conv_rhs => rw [← List.takeWhile_append_dropWhile (fun t => t.kind ≠ SynKind.lineBreakToken) (ts), hdw]
    simp
  | cons lb rest2 =>
    conv_rhs => rw [← List.takeWhile_append_dropWhile (fun t => t.kind ≠ SynKind.lineBreakToken) (ts), hdw]
    simp

theorem splitLine_snd_length (ts : List Token) (h : ts ≠ []) :
    (splitLine ts).2.length < ts.length := by
  unfold splitLine
  cases hdw : ts.dropWhile (fun t => t.kind ≠ SynKind.lineBreakToken) with
  | nil =>
    simp only [List.length_nil]
    exact List.length_pos.mpr h
  | cons lb rest2 =>
    have : ts.length = (ts.takeWhile (fun t => t.kind ≠ SynKind.lineBreakToken)).length +
        (lb :: rest2).length := by
      conv_lhs => rw [← List.takeWhile_append_dropWhile (fun t => t.kind ≠ SynKind.lineBreakToken) (ts), hdw]
      simp
    simp only [List.length_cons] at this
    simp only []
    omega

theorem splitLinesAux_flatten (fuel : Nat) :
    ∀ ts : List Token, ts.length ≤ fuel → (splitLinesAux fuel ts).flatten = ts := by
  induction fuel with
  | zero =>
    intro ts h
    rw [Nat.le_zero, List.length_eq_zero] at h
    subst h
    rfl
  | succ fuel ih =>
    intro ts h
    match hts : ts with
    | [] => rfl
    | a :: ts2 =>
      simp only [splitLinesAux, List.flatten_cons]
      rw [ih (splitLine (a :: ts2)).2 ?_, splitLine_join]
      have := splitLine_snd_length (a :: ts2) (by simp)
      omega

theorem splitLines_flatten (ts : List Token) : (splitLines ts).flatten = ts :=
  splitLinesAux_flatten ts.length ts (Nat.le_refl _)

theorem chunkFootersAux_flatten (fuel : Nat) :
    ∀ ls : List (List Token), ls.length ≤ fuel → (chunkFootersAux fuel ls).flatten = ls := by
  induction fuel with
  | zero =>
    intro ls h
    rw [Nat.le_zero, List.length_eq_zero] at h
    subst h
    rfl
  | succ fuel ih =>
    intro ls h
    match ls with
    | [] => rfl
    | l :: ls2 =>
      simp only [chunkFootersAux, List.flatten_cons, List.cons_append]
      rw [ih (ls2.dropWhile (fun l2 => !isFooterStart l2)) ?_]
      · rw [List.takeWhile_append_dropWhile]
      · have : (ls2.dropWhile (fun l2 => !isFooterStart l2)).length ≤ ls2.length :=
          List.Sublist.length_le (List.dropWhile_sublist _)
        simp only [List.length_cons] at h
        omega

theorem chunkFooters_flatten (ls : List (List Token)) : (chunkFooters ls).flatten = ls :=
  chunkFootersAux_flatten ls.length ls (Nat.le_refl _)

theorem buildFooter_slices (cs : List Char) (lo : Nat) (ts : List Token) :
    leafSlices cs (buildFooter lo ts) = tokSlices cs ts := by
  unfold buildFooter
  cases hdw : ts.dropWhile (fun t => t.kind ≠ SynKind.colonToken) with
  | nil =>
    simp only [leafSlices_mkComposite, leafSlicesList,
      leafSlicesList_map cs footerTokLeaf _ (leafSlices_footerTokLeaf cs), List.append_nil]
    conv_rhs => rw [← List.takeWhile_append_dropWhile (fun t => t.kind ≠ SynKind.colonToken) (ts), hdw]
    simp
  | cons c rest2 =>
    simp only [leafSlices_mkComposite, List.cons_append, leafSlicesList,
      leafSlicesList_map cs footerTokLeaf _ (leafSlices_footerTokLeaf cs),
      leafSlicesList_map cs footerWordLeaf _ (leafSlices_footerWordLeaf cs),
      leafSlices_mkLeaf, List.nil_append]
    conv_rhs => rw [← List.takeWhile_append_dropWhile (fun t => t.kind ≠ SynKind.colonToken) (ts), hdw,
      tokSlices_append, tokSlices_cons]

theorem tokSlices_flatten (cs : List Char) (L : List (List Token)) :
    tokSlices cs L.flatten = L.flatMap (tokSlices cs) := by
  induction L with
  | nil => rfl
  | cons l L ih => simp only [List.flatten_cons, tokSlices_append, ih, List.flatMap_cons]

theorem buildRest_slices (cs : List Char) (lo : Nat) (ts : List Token) :
    leafSlicesList cs (buildRest lo ts) = tokSlices cs ts := by
  unfold buildRest
  rw [leafSlicesList_append]
  have hbody : leafSlicesList cs
      (if ((splitLines ts).takeWhile (fun l => !isFooterStart l)).flatten.isEmpty then []
       else [mkComposite .body lo Option.none
         (genLeaves ((splitLines ts).takeWhile (fun l => !isFooterStart l)).flatten)]) =
      tokSlices cs ((splitLines ts).takeWhile (fun l => !isFooterStart l)).flatten := by
    split_ifs with he
    · rw [List.isEmpty_iff] at he
      rw [he]
      rfl
    · simp only [leafSlicesList, leafSlices_mkComposite, leafSlicesList_genLeaves,
        List.append_nil]
  rw [hbody]
  have hfoot : leafSlicesList cs ((chunkFooters ((splitLines ts).dropWhile
      (fun l => !isFooterStart l))).map
        (fun ch => buildFooter (tokStart lo ch.flatten) ch.flatten)) =
      tokSlices cs ((splitLines ts).dropWhile (fun l => !isFooterStart l)).flatten := by
    generalize hL : (splitLines ts).dropWhile (fun l => !isFooterStart l) = L
    have hflat := chunkFooters_flatten L
    calc leafSlicesList cs ((chunkFooters L).map
          (fun ch => buildFooter (tokStart lo ch.flatten) ch.flatten))
        = (chunkFooters L).flatMap (fun ch => tokSlices cs ch.flatten) := by
          generalize (chunkFooters L) = C
          induction C with
          | nil => rfl
          | cons ch C ih =>
            simp only [List.map_cons, leafSlicesList, List.flatMap_cons, ih,
              buildFooter_slices]
      _ = ((chunkFooters L).map List.flatten).flatMap (tokSlices cs) := by
          rw [List.flatMap_map]
      _ = tokSlices cs ((chunkFooters L).map List.flatten).flatten := by
          rw [tokSlices_flatten]
      _ = tokSlices cs (chunkFooters L).flatten.flatten := by
          rw [List.flatten_flatten]
      _ = tokSlices cs L.flatten := by rw [hflat]
  rw [hfoot]
  rw [← tokSlices_append, ← List.flatten_append, List.takeWhile_append_dropWhile,
    splitLines_flatten]

theorem leafSlices_mk_cons (cs : List Char) (t : NodeType) (v : Option String)
    (o l : Nat) (co : Option Nat) (c : Node) (rest : List Node) :
    leafSlices cs (.mk t v o l co (c :: rest)) = leafSlices cs c ++ leafSlicesList cs rest :=
  rfl

theorem buildMessage_slices (cs : List Char) :
    leafSlices cs (buildMessage cs).1 = cs := by
  simp only [buildMessage]
  cases hdw : (tokenize cs).dropWhile (fun t => t.kind ≠ SynKind.lineBreakToken) with
  | nil =>
    simp only [leafSlices_mk_cons, leafSlicesList, List.append_nil, parseHeader_slices]
    conv_rhs => rw [← tokSlices_tokenize cs]
    conv_rhs => rw [← List.takeWhile_append_dropWhile (fun t => t.kind ≠ SynKind.lineBreakToken) (tokenize cs), hdw]
    simp
  | cons lb rs =>
    simp only [leafSlices_mk_cons, leafSlicesList, parseHeader_slices, leafSlices_genLeaf,
      buildRest_slices]
    conv_rhs => rw [← tokSlices_tokenize cs]
    conv_rhs => rw [← List.takeWhile_append_dropWhile (fun t => t.kind ≠ SynKind.lineBreakToken) (tokenize cs), hdw,
      tokSlices_append, tokSlices_cons]

theorem parseTree_eq_buildMessage (text : String) (root : Node)
    (h : parseTree text = some root) : root = (buildMessage text.toList).1 := by
  unfold parseTree parseDoc at h
  split_ifs at h with hw
  exact (Option.some_inj.mp h).symm

theorem parseTree_none_iff (text : String) :
    parseTree text = Option.none ↔ text.toList.all isWsChar = true := by
  unfold parseTree parseDoc
  split_ifs with hcond
  · exact iff_of_true rfl ((tokenize_wsOnly text.toList) ▸ hcond)
  · refine iff_of_false (by simp) ?_
    intro hc
    exact hcond ((tokenize_wsOnly text.toList).symm ▸ hc)

theorem Ok.end_le {N : Nat} {n : Node} (h : Ok N n) : n.endOff ≤ N := by
  cases h with
  | mk t v o l co cs h1 h2 h3 => exact h1

theorem Ok.chain0 {N : Nat} {n : Node} (h : Ok N n) : ChainN 0 n.children := by
  cases h with
  | mk t v o l co cs h1 h2 h3 => exact h2

theorem Ok.child {N : Nat} {n : Node} (h : Ok N n) : ∀ c ∈ n.children, Ok N c := by
  cases h with
  | mk t v o l co cs h1 h2 h3 => exact h3

theorem chainN_weaken {lo lo' : Nat} (h : lo' ≤ lo) :
    ∀ {ns : List Node}, ChainN lo ns → ChainN lo' ns := by
  intro ns hc
  match ns with
  | [] => trivial
  | n :: ns => exact ⟨Nat.le_trans h hc.1, hc.2⟩

theorem nodesEnd_cons (lo : Nat) (n : Node) (ns : List Node) :
    nodesEnd lo (n :: ns) = nodesEnd n.endOff ns := by
  match ns with
  | [] => rfl
  | m :: ms => rfl

theorem tokEnd_cons (d : Nat) (t : Token) (ts : List Token) :
    tokEnd d (t :: ts) = tokEnd (t.offset + t.length) ts := by
  match ts with
  | [] => rfl
  | m :: ms => rfl

theorem chainN_le_end {lo : Nat} {ns : List Node} (h : ChainN lo ns) :
    lo ≤ nodesEnd lo ns := by
  induction ns generalizing lo with
  | nil => exact Nat.le_refl _
  | cons n ns ih =>
    rw [nodesEnd_cons]
    have h2 := ih h.2
    have : lo ≤ n.endOff := Nat.le_trans h.1 (Nat.le_add_right _ _)
    omega

theorem chainN_start_le {lo : Nat} {ns : List Node} (h : ChainN lo ns) :
    lo ≤ nodesStart lo ns := by
  match ns with
  | [] => exact Nat.le_refl _
  | n :: ns => exact h.1

theorem chainN_append {lo : Nat} {a b : List Node}
    (ha : ChainN lo a) (hb : ChainN (nodesEnd lo a) b) : ChainN lo (a ++ b) := by
  induction a generalizing lo with
  | nil => exact hb
  | cons n ns ih =>
    refine ⟨ha.1, ih ha.2 ?_⟩
    rw [← nodesEnd_cons]
    exact hb

theorem tokChain_append {lo : Nat} {a b : List Token} (h : TokChain lo (a ++ b)) :
    TokChain lo a ∧ TokChain (tokEnd lo a) b := by
  induction a generalizing lo with
  | nil => exact ⟨trivial, h⟩
  | cons t ts ih =>
    obtain ⟨h1, h2⟩ := h
    have := ih h2
    rw [tokEnd_cons, h1]
    exact ⟨⟨h1, this.1⟩, this.2⟩

/-- Bound on all token ends produced by the tokenizer. -/
theorem tokenizeAux_bound (fuel : Nat) :
    ∀ (cs : List Char) (pos : Nat), ∀ t ∈ tokenizeAux fuel cs pos,
      t.offset + t.length ≤ pos + cs.length := by
  induction fuel with
  | zero => intro cs pos t ht; cases ht
  | succ fuel ih =>
    intro cs pos t ht
    match cs with
    | [] => cases ht
    | c :: rest =>
      rcases List.mem_cons.mp ht with h1 | h2
      · subst h1
        simp only [Token.length, List.length_cons, List.length_take]
        omega
      · have := ih (rest.drop (classify c rest).2.1) _ t h2
        simp only [List.length_drop, List.length_cons, List.length_take] at *
        omega

theorem spanPres_genLeaf : SpanPres genLeaf := by
  intro t
  exact ⟨rfl, rfl, rfl⟩

theorem spanPres_footerTokLeaf : SpanPres footerTokLeaf := by
  intro t
  unfold footerTokLeaf
  split_ifs <;> exact ⟨rfl, rfl, rfl⟩

theorem spanPres_footerWordLeaf : SpanPres footerWordLeaf := by
  intro t
  unfold footerWordLeaf
  split_ifs <;> exact ⟨rfl, rfl, rfl⟩

theorem Ok_of_leaf {N : Nat} {n : Node} (hc : n.children = []) (he : n.endOff ≤ N) :
    Ok N n := by
  match n with
  | .mk t v o l co cs =>
    simp only [Node.children] at hc
    subst hc
    exact Ok.mk t v o l co [] he trivial (by intro c hc; cases hc)

theorem endOff_map {f : Token → Node} (hf : SpanPres f) (t : Token) :
    (f t).endOff = t.offset + t.length := by
  unfold Node.endOff
  rw [(hf t).1, (hf t).2.1]

theorem chainN_map {f : Token → Node} (hf : SpanPres f) :
    ∀ {lo : Nat} {ts : List Token}, TokChain lo ts → ChainN lo (ts.map f) := by
  intro lo ts h
  induction ts generalizing lo with
  | nil => trivial
  | cons t ts ih =>
    refine ⟨by rw [(hf t).1, h.1], ?_⟩
    rw [endOff_map hf, h.1]
    exact ih h.2

theorem nodesEnd_map {f : Token → Node} (hf : SpanPres f) (d : Nat) (ts : List Token) :
    nodesEnd d (ts.map f) = tokEnd d ts := by
  unfold nodesEnd tokEnd
  rw [List.getLast?_map]
  cases ts.getLast? with
  | none => rfl
  | some t => simp [endOff_map hf]

theorem nodesStart_map {f : Token → Node} (hf : SpanPres f) (d : Nat) (ts : List Token) :
    nodesStart d (ts.map f) = tokStart d ts := by
  cases ts with
  | nil => rfl
  | cons t ts =>
    show (f t).offset = t.offset
    exact (hf t).1

theorem ok_map {N : Nat} {f : Token → Node} (hf : SpanPres f) {ts : List Token}
    (hb : ∀ t ∈ ts, t.offset + t.length ≤ N) : ∀ n ∈ ts.map f, Ok N n := by
  intro n hn
  rcases List.mem_map.mp hn with ⟨t, ht, rfl⟩
  exact Ok_of_leaf (hf t).2.2 (by rw [endOff_map hf]; exact hb t ht)

theorem tokChain_start {d : Nat} {ts : List Token} (h : TokChain d ts) :
    tokStart d ts = d := by
  cases ts with
  | nil => rfl
  | cons t ts => exact h.1

theorem chainN_start_le_end {lo : Nat} {ns : List Node} (h : ChainN lo ns) :
    nodesStart lo ns ≤ nodesEnd lo ns := by
  match ns with
  | [] => exact Nat.le_refl _
  | n :: ns =>
    show n.offset ≤ _
    rw [nodesEnd_cons]
    calc n.offset ≤ n.endOff := Nat.le_add_right _ _
      _ ≤ nodesEnd n.endOff ns := chainN_le_end h.2

theorem mkComposite_offset (ty : NodeType) (d : Nat) (co : Option Nat) (cs : List Node) :
    (mkComposite ty d co cs).offset = nodesStart d cs := rfl

theorem mkComposite_children (ty : NodeType) (d : Nat) (co : Option Nat) (cs : List Node) :
    (mkComposite ty d co cs).children = cs := rfl

theorem mkComposite_endOff {lo : Nat} {cs : List Node} (ty : NodeType) (co : Option Nat)
    (h : ChainN lo cs) : (mkComposite ty lo co cs).endOff = nodesEnd lo cs := by
  unfold mkComposite Node.endOff
  show nodesStart lo cs + (nodesEnd lo cs - nodesStart lo cs) = _
  have := chainN_start_le_end h
  omega

theorem mkComposite_ok {N lo : Nat} {cs : List Node} (ty : NodeType) (co : Option Nat)
    (hch : ChainN lo cs) (hok : ∀ c ∈ cs, Ok N c) (hend : nodesEnd lo cs ≤ N) :
    Ok N (mkComposite ty lo co cs) := by
  unfold mkComposite
  refine Ok.mk _ _ _ _ _ _ ?_ (chainN_weaken (Nat.zero_le _) hch) hok
  have := chainN_start_le_end hch
  omega

theorem noStep_spec {N lo : Nat} {ts : List Token} (hch : TokChain lo ts)
    (hb : ∀ t ∈ ts, t.offset + t.length ≤ N) (hlo : lo ≤ N) :
    StepSpec N lo (noStep lo ts) :=
  ⟨trivial, rfl, hch, hb, hlo, by intro n hn; cases hn⟩

theorem stepType_spec {N lo : Nat} {ts : List Token} (hch : TokChain lo ts)
    (hb : ∀ t ∈ ts, t.offset + t.length ≤ N) (hlo : lo ≤ N) :
    StepSpec N lo (stepType lo ts) := by
  match ts with
  | [] =>
    simp only [stepType]
    refine ⟨⟨Nat.le_refl _, trivial⟩, rfl, trivial, (by intro t ht; cases ht), hlo, ?_⟩
    intro n hn
    rw [List.mem_singleton] at hn
    subst hn
    refine Ok_of_leaf rfl ?_
    show lo + 0 ≤ N
    omega
  | t :: rest =>
    simp only [stepType]
    split_ifs
    · refine ⟨⟨hch.1.ge, trivial⟩, rfl, ?_, ?_, ?_, ?_⟩
      · show TokChain (t.offset + t.length) rest
        rw [hch.1]
        exact hch.2
      · intro x hx
        exact hb x (List.mem_cons_of_mem t hx)
      · exact hb t (List.mem_cons_self t rest)
      · intro n hn
        rw [List.mem_singleton] at hn
        subst hn
        exact Ok_of_leaf rfl (hb t (List.mem_cons_self t rest))
    · refine ⟨⟨Nat.le_refl _, trivial⟩, rfl, hch, hb, hlo, ?_⟩
      intro n hn
      rw [List.mem_singleton] at hn
      subst hn
      refine Ok_of_leaf rfl ?_
      show lo + 0 ≤ N
      omega

theorem stepBang_spec {N lo : Nat} {ts : List Token} (hch : TokChain lo ts)
    (hb : ∀ t ∈ ts, t.offset + t.length ≤ N) (hlo : lo ≤ N) :
    StepSpec N lo (stepBang lo ts) := by
  match ts with
  | [] => exact noStep_spec hch hb hlo
  | [a] => exact noStep_spec hch hb hlo
  | a :: b :: rest =>
    simp only [stepBang]
    split_ifs
    · refine ⟨⟨hch.1.ge, trivial⟩, rfl, ?_, ?_, ?_, ?_⟩
      · show TokChain (a.offset + a.length) (b :: rest)
        rw [hch.1]
        exact hch.2
      · intro x hx
        exact hb x (List.mem_cons_of_mem a hx)
      · exact hb a (List.mem_cons_self a (b :: rest))
      · intro n hn
        rw [List.mem_singleton] at hn
        subst hn
        exact Ok_of_leaf rfl (hb a (List.mem_cons_self a (b :: rest)))
    · exact noStep_spec hch hb hlo

theorem stepColon_spec {N lo : Nat} {ts : List Token} (hch : TokChain lo ts)
    (hb : ∀ t ∈ ts, t.offset + t.length ≤ N) (hlo : lo ≤ N) :
    StepSpec N lo (stepColon lo ts) := by
  match ts with
  | [] =>
    exact ⟨trivial, rfl, trivial, (by intro t ht; cases ht), hlo, (by intro n hn; cases hn)⟩
  | t :: rest =>
    simp only [stepColon]
    split_ifs
    · refine ⟨⟨hch.1.ge, trivial⟩, rfl, ?_, ?_, ?_, ?_⟩
      · show TokChain (t.offset + t.length) rest
        rw [hch.1]
        exact hch.2
      · intro x hx
        exact hb x (List.mem_cons_of_mem t hx)
      · exact hb t (List.mem_cons_self t rest)
      · intro n hn
        rw [List.mem_singleton] at hn
        subst hn
        exact Ok_of_leaf rfl (hb t (List.mem_cons_self t rest))
    · exact ⟨trivial, rfl, hch, hb, hlo, (by intro n hn; cases hn)⟩

theorem stepWs_spec {N lo : Nat} {ts : List Token} (hch : TokChain lo ts)
    (hb : ∀ t ∈ ts, t.offset + t.length ≤ N) (hlo : lo ≤ N) :
    StepSpec N lo (stepWs lo ts) := by
  match ts with
  | [] => exact noStep_spec hch hb hlo
  | t :: rest =>
    simp only [stepWs]
    split_ifs
    · refine ⟨⟨hch.1.ge, trivial⟩, rfl, ?_, ?_, ?_, ?_⟩
      · show TokChain (t.offset + t.length) rest
        rw [hch.1]
        exact hch.2
      · intro x hx
        exact hb x (List.mem_cons_of_mem t hx)
      · exact hb t (List.mem_cons_self t rest)
      · intro n hn
        rw [List.mem_singleton] at hn
        subst hn
        exact Ok_of_leaf rfl (hb t (List.mem_cons_self t rest))
    · exact noStep_spec hch hb hlo

theorem tokEnd_le {N d : Nat} {ts : List Token} (hd : d ≤ N)
    (hb : ∀ t ∈ ts, t.offset + t.length ≤ N) : tokEnd d ts ≤ N := by
  unfold tokEnd
  cases hl : ts.getLast? with
  | none => exact hd
  | some a => exact hb a (List.mem_of_mem_getLast? hl)

theorem mkLeaf_offset (ty : NodeType) (t : Token) : (mkLeaf ty t).offset = t.offset := rfl

theorem mkLeaf_endOff (ty : NodeType) (t : Token) :
    (mkLeaf ty t).endOff = t.offset + t.length := rfl

theorem zeroLeaf_offset (ty : NodeType) (p : Nat) : (zeroLeaf ty p).offset = p := rfl

theorem zeroLeaf_endOff (ty : NodeType) (p : Nat) : (zeroLeaf ty p).endOff = p :=
  Nat.add_zero p

theorem tokChain_take_drop (p : Token → Bool) :
    ∀ {lo : Nat} {ts : List Token}, TokChain lo ts →
      TokChain lo (ts.takeWhile p) ∧
        TokChain (tokEnd lo (ts.takeWhile p)) (ts.dropWhile p) := by
  intro lo ts h
  induction ts generalizing lo with
  | nil => exact ⟨trivial, trivial⟩
  | cons t ts ih =>
    cases hp : p t with
    | true =>
      rw [List.takeWhile_cons, List.dropWhile_cons, hp]
      simp only [if_true]
      have htl := ih h.2
      rw [tokEnd_cons, h.1]
      exact ⟨⟨h.1, htl.1⟩, htl.2⟩
    | false =>
      rw [List.takeWhile_cons, List.dropWhile_cons, hp]
      simp only [if_false, Bool.false_eq_true]
      exact ⟨trivial, h⟩

theorem stepScope_spec {N lo : Nat} {ts : List Token} (hch : TokChain lo ts)
    (hb : ∀ t ∈ ts, t.offset + t.length ≤ N) (hlo : lo ≤ N) :
    StepSpec N lo (stepScope lo ts) := by
  match ts with
  | [] => exact noStep_spec hch hb hlo
  | t :: rest =>
    simp only [stepScope]
    split_ifs with hk
    case neg => exact noStep_spec hch hb hlo
    have hrestE : TokChain (t.offset + t.length) rest := by
      rw [hch.1]
      exact hch.2
    have htd := tokChain_take_drop (fun x => x.kind ≠ SynKind.closeParenToken) hrestE
    have hbinner : ∀ x ∈ rest.takeWhile (fun x => x.kind ≠ SynKind.closeParenToken),
        x.offset + x.length ≤ N := by
      intro x hx
      exact hb x (List.mem_cons_of_mem t ((List.takeWhile_sublist _).subset hx))
    have htend : t.offset + t.length ≤ N := hb t (List.mem_cons_self t rest)
    have hie : tokEnd (t.offset + t.length)
        (rest.takeWhile (fun x => x.kind ≠ SynKind.closeParenToken)) ≤ N :=
      tokEnd_le htend hbinner
    have hscopeOff : (mkComposite .scope (t.offset + t.length) Option.none
        (genLeaves (rest.takeWhile (fun x => x.kind ≠ SynKind.closeParenToken)))).offset =
        t.offset + t.length := by
      rw [mkComposite_offset, genLeaves, nodesStart_map spanPres_genLeaf,
        tokChain_start htd.1]
    have hscopeEnd : (mkComposite .scope (t.offset + t.length) Option.none
        (genLeaves (rest.takeWhile (fun x => x.kind ≠ SynKind.closeParenToken)))).endOff =
        tokEnd (t.offset + t.length)
          (rest.takeWhile (fun x => x.kind ≠ SynKind.closeParenToken)) := by
      unfold genLeaves
      rw [mkComposite_endOff _ _ (chainN_map spanPres_genLeaf htd.1),
        nodesEnd_map spanPres_genLeaf]
    have hscopeOk : Ok N (mkComposite .scope (t.offset + t.length) Option.none
        (genLeaves (rest.takeWhile (fun x => x.kind ≠ SynKind.closeParenToken)))) := by
      refine mkComposite_ok _ _ (chainN_map spanPres_genLeaf htd.1)
        (ok_map spanPres_genLeaf hbinner) ?_
      rw [genLeaves, nodesEnd_map spanPres_genLeaf]
      exact hie
    cases hdw : rest.dropWhile (fun x => x.kind ≠ SynKind.closeParenToken) with
    | nil =>
      rw [hdw] at htd
      refine ⟨?_, ?_, trivial, (by intro x hx; cases hx), ?_, ?_⟩
      · refine ⟨hch.1.ge, ?_, ?_, trivial⟩
        · rw [mkLeaf_endOff, hscopeOff]
        · rw [hscopeEnd, zeroLeaf_offset]
      · show nodesEnd lo [_, _, _] = _
        rw [nodesEnd_cons, nodesEnd_cons]
        show nodesEnd (zeroLeaf NodeType.scopeParenClose _).endOff [] = _
        rw [zeroLeaf_endOff]
        unfold nodesEnd
        simp
      · exact hie
      · intro n hn
        rcases List.mem_cons.mp hn with h1 | hn2
        · subst h1; exact Ok_of_leaf rfl htend
        rcases List.mem_cons.mp hn2 with h2 | hn3
        · subst h2; exact hscopeOk
        rcases List.mem_cons.mp hn3 with h3 | hn4
        · subst h3
          refine Ok_of_leaf rfl ?_
          rw [zeroLeaf_endOff]
          exact hie
        · cases hn4
    | cons c rest2 =>
      rw [hdw] at htd
      have hcoff : c.offset = tokEnd (t.offset + t.length)
          (rest.takeWhile (fun x => x.kind ≠ SynKind.closeParenToken)) := htd.2.1
      have hsub : ∀ x, x ∈ rest.dropWhile (fun x => x.kind ≠ SynKind.closeParenToken) →
          x ∈ t :: rest := by
        intro x hx
        exact List.mem_cons_of_mem t ((List.dropWhile_sublist
          (fun x => x.kind ≠ SynKind.closeParenToken)).subset hx)
      have hcmem : c ∈ t :: rest := by
        refine hsub c ?_
        rw [hdw]
        exact List.mem_cons_self c rest2
      refine ⟨?_, ?_, ?_, ?_, ?_, ?_⟩
      · refine ⟨hch.1.ge, ?_, ?_, trivial⟩
        · rw [mkLeaf_endOff, hscopeOff]
        · rw [hscopeEnd, mkLeaf_offset, hcoff]
      · show nodesEnd lo [_, _, _] = _
        rw [nodesEnd_cons, nodesEnd_cons]
        show nodesEnd (mkLeaf NodeType.scopeParenClose c).endOff [] = _
        rw [mkLeaf_endOff]
        rfl
      · have := htd.2.2
        rw [← hcoff] at this
        exact this
      · intro x hx
        refine hb x (hsub x ?_)
        rw [hdw]
        exact List.mem_cons_of_mem c hx
      · exact hb c hcmem
      · intro n hn
        rcases List.mem_cons.mp hn with h1 | hn2
        · subst h1; exact Ok_of_leaf rfl htend
        rcases List.mem_cons.mp hn2 with h2 | hn3
        · subst h2; exact hscopeOk
        rcases List.mem_cons.mp hn3 with h3 | hn4
        · subst h3
          exact Ok_of_leaf rfl (hb c hcmem)
        · cases hn4

theorem tokEnd_append (d : Nat) (a b : List Token) :
    tokEnd d (a ++ b) = tokEnd (tokEnd d a) b := by
  unfold tokEnd
  cases hb : b.getLast? with
  | none =>
    have : b = [] := List.getLast?_eq_none_iff.mp hb
    subst this
    simp
  | some x =>
    rw [List.getLast?_append_of_ne_nil, hb]
    intro hc
    subst hc
    cases hb

theorem nodesEnd_append (d : Nat) (a b : List Node) :
    nodesEnd d (a ++ b) = nodesEnd (nodesEnd d a) b := by
  unfold nodesEnd
  cases hb : b.getLast? with
  | none =>
    have : b = [] := List.getLast?_eq_none_iff.mp hb
    subst this
    simp
  | some x =>
    rw [List.getLast?_append_of_ne_nil, hb]
    intro hc
    subst hc
    cases hb

theorem stepType_end (lo : Nat) (ts : List Token) (hch : TokChain lo ts) :
    StepEnd lo ts (stepType lo ts) := by
  match ts with
  | [] => rfl
  | t :: rest =>
    simp only [stepType]
    split_ifs
    · show tokEnd (t.offset + t.length) rest = tokEnd lo (t :: rest)
      rw [tokEnd_cons, hch.1]
    · rfl

theorem stepBang_end (lo : Nat) (ts : List Token) (hch : TokChain lo ts) :
    StepEnd lo ts (stepBang lo ts) := by
  match ts with
  | [] => rfl
  | [a] => rfl
  | a :: b :: rest =>
    simp only [stepBang]
    split_ifs
    · show tokEnd (a.offset + a.length) (b :: rest) = tokEnd lo (a :: b :: rest)
      rw [tokEnd_cons lo, hch.1]
    · rfl

theorem stepColon_end (lo : Nat) (ts : List Token) (hch : TokChain lo ts) :
    StepEnd lo ts (stepColon lo ts) := by
  match ts with
  | [] => rfl
  | t :: rest =>
    simp only [stepColon]
    split_ifs
    · show tokEnd (t.offset + t.length) rest = tokEnd lo (t :: rest)
      rw [tokEnd_cons, hch.1]
    · rfl

theorem stepWs_end (lo : Nat) (ts : List Token) (hch : TokChain lo ts) :
    StepEnd lo ts (stepWs lo ts) := by
  match ts with
  | [] => rfl
  | t :: rest =>
    simp only [stepWs]
    split_ifs
    · show tokEnd (t.offset + t.length) rest = tokEnd lo (t :: rest)
      rw [tokEnd_cons, hch.1]
    · rfl

theorem stepScope_end (lo : Nat) (ts : List Token) (hch : TokChain lo ts) :
    StepEnd lo ts (stepScope lo ts) := by
  match ts with
  | [] => rfl
  | t :: rest =>
    simp only [stepScope]
    split_ifs with hk
    case neg => rfl
    have hsplit : rest.takeWhile (fun x => x.kind ≠ SynKind.closeParenToken) ++
        rest.dropWhile (fun x => x.kind ≠ SynKind.closeParenToken) = rest :=
      List.takeWhile_append_dropWhile _ _
    cases hdw : rest.dropWhile (fun x => x.kind ≠ SynKind.closeParenToken) with
    | nil =>
      rw [hdw, List.append_nil] at hsplit
      show tokEnd (tokEnd (t.offset + t.length)
        (rest.takeWhile (fun x => x.kind ≠ SynKind.closeParenToken))) [] = tokEnd lo (t :: rest)
      have hnil : ∀ d : Nat, tokEnd d ([] : List Token) = d := fun d => rfl
      rw [hnil, hsplit, tokEnd_cons]
    | cons c rest2 =>
      rw [hdw] at hsplit
      show tokEnd (c.offset + c.length) rest2 = tokEnd lo (t :: rest)
      rw [tokEnd_cons, hch.1, ← hsplit, tokEnd_append, tokEnd_cons]

theorem chainStep {lo m m' : Nat} {a b : List Node}
    (ha : ChainN lo a ∧ nodesEnd lo a = m) (hb : ChainN m b ∧ nodesEnd m b = m') :
    ChainN lo (a ++ b) ∧ nodesEnd lo (a ++ b) = m' := by
  refine ⟨chainN_append ha.1 ?_, ?_⟩
  · rw [ha.2]
    exact hb.1
  · rw [nodesEnd_append, ha.2, hb.2]

theorem header_assemble {N lo : Nat} {ts : List Token} (s1 s2 s3 s4 s5 : StepOut)
    (h1 : StepSpec N lo s1) (h2 : StepSpec N s1.pos s2) (h3 : StepSpec N s2.pos s3)
    (h4 : StepSpec N s3.pos s4) (h5 : StepSpec N s4.pos s5)
    (hend : tokEnd s5.pos s5.rest = tokEnd lo ts) (hlo : lo ≤ N)
    (hbound : ∀ t ∈ ts, t.offset + t.length ≤ N) :
    Ok N (mkComposite .header lo s4.colon (s1.nodes ++ s2.nodes ++ s3.nodes ++ s4.nodes ++
        s5.nodes ++ [mkComposite .description s5.pos Option.none (genLeaves s5.rest)])) ∧
      lo ≤ (mkComposite .header lo s4.colon (s1.nodes ++ s2.nodes ++ s3.nodes ++ s4.nodes ++
        s5.nodes ++ [mkComposite .description s5.pos Option.none (genLeaves s5.rest)])).offset ∧
      (mkComposite .header lo s4.colon (s1.nodes ++ s2.nodes ++ s3.nodes ++ s4.nodes ++
        s5.nodes ++ [mkComposite .description s5.pos Option.none
          (genLeaves s5.rest)])).endOff = tokEnd lo ts := by
  obtain ⟨c1, e1, tc1, b1, p1, o1⟩ := h1
  obtain ⟨c2, e2, tc2, b2, p2, o2⟩ := h2
  obtain ⟨c3, e3, tc3, b3, p3, o3⟩ := h3
  obtain ⟨c4, e4, tc4, b4, p4, o4⟩ := h4
  obtain ⟨c5, e5, tc5, b5, p5, o5⟩ := h5
  have hrest5 : ∀ t ∈ s5.rest, t.offset + t.length ≤ N := b5
  have hdescOff : (mkComposite .description s5.pos Option.none (genLeaves s5.rest)).offset =
      s5.pos := by
    rw [mkComposite_offset, genLeaves, nodesStart_map spanPres_genLeaf, tokChain_start tc5]
  have hdescEnd : (mkComposite .description s5.pos Option.none (genLeaves s5.rest)).endOff =
      tokEnd s5.pos s5.rest := by
    unfold genLeaves
    rw [mkComposite_endOff _ _ (chainN_map spanPres_genLeaf tc5),
      nodesEnd_map spanPres_genLeaf]
  have hdescOk : Ok N (mkComposite .description s5.pos Option.none (genLeaves s5.rest)) := by
    refine mkComposite_ok _ _ (chainN_map spanPres_genLeaf tc5)
      (ok_map spanPres_genLeaf hrest5) ?_
    unfold genLeaves
    rw [nodesEnd_map spanPres_genLeaf]
    exact tokEnd_le p5 hrest5
  have hdesc : ChainN s5.pos [mkComposite .description s5.pos Option.none
      (genLeaves s5.rest)] ∧ nodesEnd s5.pos [mkComposite .description s5.pos Option.none
      (genLeaves s5.rest)] = tokEnd s5.pos s5.rest := by
    constructor
    · exact ⟨Nat.le_of_eq hdescOff.symm, trivial⟩
    · show nodesEnd _ [_] = _
      unfold nodesEnd
      simp only [List.getLast?_singleton]
      exact hdescEnd
  have hall := chainStep (chainStep (chainStep (chainStep (chainStep ⟨c1, e1⟩ ⟨c2, e2⟩)
    ⟨c3, e3⟩) ⟨c4, e4⟩) ⟨c5, e5⟩) hdesc
  have hok : ∀ n ∈ s1.nodes ++ s2.nodes ++ s3.nodes ++ s4.nodes ++ s5.nodes ++
      [mkComposite .description s5.pos Option.none (genLeaves s5.rest)], Ok N n := by
    intro n hn
    simp only [List.mem_append, List.mem_singleton] at hn
    rcases hn with ((((hn | hn) | hn) | hn) | hn) | hn
    · exact o1 n hn
    · exact o2 n hn
    · exact o3 n hn
    · exact o4 n hn
    · exact o5 n hn
    · subst hn; exact hdescOk
  refine ⟨mkComposite_ok _ _ hall.1 hok ?_, ?_, ?_⟩
  · rw [hall.2, hend]
    exact tokEnd_le hlo hbound
  · rw [mkComposite_offset]
    exact chainN_start_le hall.1
  · rw [mkComposite_endOff _ _ hall.1, hall.2, hend]

theorem parseHeader_spec {N lo : Nat} {ts : List Token} (hch : TokChain lo ts)
    (hb : ∀ t ∈ ts, t.offset + t.length ≤ N) (hlo : lo ≤ N) :
    Ok N (parseHeader lo ts).1 ∧ lo ≤ (parseHeader lo ts).1.offset ∧
      (parseHeader lo ts).1.endOff = tokEnd lo ts := by
  obtain ⟨c1, e1, tc1, b1, p1, o1⟩ := stepType_spec hch hb hlo
  obtain ⟨c2, e2, tc2, b2, p2, o2⟩ := stepScope_spec tc1 b1 p1
  obtain ⟨c3, e3, tc3, b3, p3, o3⟩ := stepBang_spec tc2 b2 p2
  obtain ⟨c4, e4, tc4, b4, p4, o4⟩ := stepColon_spec tc3 b3 p3
  simp only [parseHeader]
  refine header_assemble _ _ _ _ _ (stepType_spec hch hb hlo)
    (stepScope_spec tc1 b1 p1) (stepBang_spec tc2 b2 p2) (stepColon_spec tc3 b3 p3)
    (stepWs_spec tc4 b4 p4) ?_ hlo hb
  rw [stepWs_end _ _ tc4, stepColon_end _ _ tc3, stepBang_end _ _ tc2,
    stepScope_end _ _ tc1, stepType_end _ _ hch]

theorem splitLine_fst_ne (ts : List Token) (h : ts ≠ []) : (splitLine ts).1 ≠ [] := by
  unfold splitLine
  cases hdw : ts.dropWhile (fun t => t.kind ≠ SynKind.lineBreakToken) with
  | nil =>
    show ts.takeWhile (fun t => t.kind ≠ SynKind.lineBreakToken) ≠ []
    have := List.takeWhile_append_dropWhile (fun t => t.kind ≠ SynKind.lineBreakToken) (ts)
    rw [hdw, List.append_nil] at this
    rw [this]
    exact h
  | cons lb rest2 =>
    show _ ++ [lb] ≠ []
    simp

theorem splitLinesAux_ne (fuel : Nat) :
    ∀ ts : List Token, ∀ l ∈ splitLinesAux fuel ts, l ≠ [] := by
  induction fuel with
  | zero => intro ts l hl; cases hl
  | succ fuel ih =>
    intro ts l hl
    match ts with
    | [] => cases hl
    | a :: ts2 =>
      rcases List.mem_cons.mp hl with h1 | h2
      · subst h1
        exact splitLine_fst_ne (a :: ts2) (by simp)
      · exact ih _ l h2

theorem chunkFootersAux_head (fuel : Nat) :
    ∀ ls : List (List Token), ∀ ch ∈ chunkFootersAux fuel ls,
      ∃ l cont, ch = l :: cont ∧ l ∈ ls := by
  induction fuel with
  | zero => intro ls ch hch; cases hch
  | succ fuel ih =>
    intro ls ch hch
    match ls with
    | [] => cases hch
    | l :: ls2 =>
      rcases List.mem_cons.mp hch with h1 | h2
      · exact ⟨l, _, h1, List.mem_cons_self l ls2⟩
      · obtain ⟨l2, cont, heq, hmem⟩ := ih _ ch h2
        refine ⟨l2, cont, heq, List.mem_cons_of_mem l
          ((List.dropWhile_sublist (fun x => !isFooterStart x)).subset hmem)⟩

theorem buildFooter_spec {N lo : Nat} {ts : List Token} (hch : TokChain lo ts)
    (hb : ∀ t ∈ ts, t.offset + t.length ≤ N) (hlo : lo ≤ N) :
    Ok N (buildFooter lo ts) ∧ lo ≤ (buildFooter lo ts).offset ∧
      (buildFooter lo ts).endOff = tokEnd lo ts := by
  have htd := tokChain_take_drop (fun t => t.kind ≠ SynKind.colonToken) hch
  have hbpre : ∀ x ∈ ts.takeWhile (fun t => t.kind ≠ SynKind.colonToken),
      x.offset + x.length ≤ N := by
    intro x hx
    exact hb x ((List.takeWhile_sublist _).subset hx)
  have hie : tokEnd lo (ts.takeWhile (fun t => t.kind ≠ SynKind.colonToken)) ≤ N :=
    tokEnd_le hlo hbpre
  have hftokOff : (mkComposite .footerToken lo Option.none
      ((ts.takeWhile (fun t => t.kind ≠ SynKind.colonToken)).map footerTokLeaf)).offset =
      lo := by
    rw [mkComposite_offset, nodesStart_map spanPres_footerTokLeaf, tokChain_start htd.1]
  have hftokEnd : (mkComposite .footerToken lo Option.none
      ((ts.takeWhile (fun t => t.kind ≠ SynKind.colonToken)).map footerTokLeaf)).endOff =
      tokEnd lo (ts.takeWhile (fun t => t.kind ≠ SynKind.colonToken)) := by
    rw [mkComposite_endOff _ _ (chainN_map spanPres_footerTokLeaf htd.1),
      nodesEnd_map spanPres_footerTokLeaf]
  have hftokOk : Ok N (mkComposite .footerToken lo Option.none
      ((ts.takeWhile (fun t => t.kind ≠ SynKind.colonToken)).map footerTokLeaf)) := by
    refine mkComposite_ok _ _ (chainN_map spanPres_footerTokLeaf htd.1)
      (ok_map spanPres_footerTokLeaf hbpre) ?_
    rw [nodesEnd_map spanPres_footerTokLeaf]
    exact hie
  have hsplit : ts.takeWhile (fun t => t.kind ≠ SynKind.colonToken) ++
      ts.dropWhile (fun t => t.kind ≠ SynKind.colonToken) = ts :=
    List.takeWhile_append_dropWhile _ _
  unfold buildFooter
  cases hdw : ts.dropWhile (fun t => t.kind ≠ SynKind.colonToken) with
  | nil =>
    rw [hdw, List.append_nil] at hsplit
    refine ⟨?_, ?_, ?_⟩
    · refine mkComposite_ok _ _ ⟨Nat.le_of_eq hftokOff.symm, trivial⟩ ?_ ?_
      · intro n hn
        rw [List.mem_singleton] at hn
        subst hn
        exact hftokOk
      · show nodesEnd lo [_] ≤ N
        unfold nodesEnd
        simp only [List.getLast?_singleton]
        rw [hftokEnd]
        exact hie
    · rw [mkComposite_offset]
      show lo ≤ (mkComposite .footerToken lo Option.none
        ((ts.takeWhile (fun t => t.kind ≠ SynKind.colonToken)).map footerTokLeaf)).offset
      rw [hftokOff]
    · have hch1 : ChainN lo [mkComposite .footerToken lo Option.none
          ((ts.takeWhile (fun t => t.kind ≠ SynKind.colonToken)).map footerTokLeaf)] :=
        ⟨Nat.le_of_eq hftokOff.symm, trivial⟩
      rw [mkComposite_endOff _ _ hch1]
      show nodesEnd lo [_] = _
      unfold nodesEnd
      simp only [List.getLast?_singleton]
      rw [hftokEnd]
      conv_rhs => rw [← hsplit]
  | cons c rest2 =>
    rw [hdw] at htd
    have hcoff : c.offset = tokEnd lo (ts.takeWhile (fun t => t.kind ≠ SynKind.colonToken)) :=
      htd.2.1
    have hsub2 : ∀ x ∈ c :: rest2, x ∈ ts := by
      intro x hx
      refine (List.dropWhile_sublist (fun t => t.kind ≠ SynKind.colonToken)).subset ?_
      rw [hdw]
      exact hx
    have hwchain : TokChain (c.offset + c.length) rest2 := by
      have := htd.2.2
      rw [← hcoff] at this
      exact this
    have hbrest2 : ∀ x ∈ rest2, x.offset + x.length ≤ N := by
      intro x hx
      exact hb x (hsub2 x (List.mem_cons_of_mem c hx))
    have hchain : ChainN lo ([mkComposite .footerToken lo Option.none
        ((ts.takeWhile (fun t => t.kind ≠ SynKind.colonToken)).map footerTokLeaf),
        mkLeaf .symbol c] ++ rest2.map footerWordLeaf) := by
      refine chainN_append ⟨Nat.le_of_eq hftokOff.symm, ?_, trivial⟩ ?_
      · rw [hftokEnd, mkLeaf_offset, hcoff]
      · show ChainN (nodesEnd lo [_, _]) _
        rw [nodesEnd_cons]
        show ChainN (nodesEnd (mkLeaf NodeType.symbol c).endOff []) _
        unfold nodesEnd
        simp only [List.getLast?_nil]
        rw [mkLeaf_endOff]
        exact chainN_map spanPres_footerWordLeaf hwchain
    have hend2 : nodesEnd lo ([mkComposite .footerToken lo Option.none
        ((ts.takeWhile (fun t => t.kind ≠ SynKind.colonToken)).map footerTokLeaf),
        mkLeaf .symbol c] ++ rest2.map footerWordLeaf) = tokEnd lo ts := by
      rw [nodesEnd_append, nodesEnd_cons, nodesEnd_cons]
      show nodesEnd (nodesEnd (mkLeaf NodeType.symbol c).endOff [])
        (rest2.map footerWordLeaf) = _
      have hnil : nodesEnd (mkLeaf NodeType.symbol c).endOff ([] : List Node) =
          (mkLeaf NodeType.symbol c).endOff := rfl
      rw [hnil, mkLeaf_endOff, nodesEnd_map spanPres_footerWordLeaf]
      conv_rhs => rw [← hsplit, tokEnd_append, hdw, ← hcoff]
      rw [tokEnd_cons c.offset]
    refine ⟨?_, ?_, ?_⟩
    · refine mkComposite_ok _ _ hchain ?_ ?_
      · intro n hn
        rw [List.cons_append, List.cons_append] at hn
        rcases List.mem_cons.mp hn with h1 | hn2
        · subst h1; exact hftokOk
        rcases List.mem_cons.mp hn2 with h2 | hn3
        · subst h2
          exact Ok_of_leaf rfl (hb c (hsub2 c (List.mem_cons_self c rest2)))
        · rcases List.mem_map.mp hn3 with ⟨x, hx, rfl⟩
          exact Ok_of_leaf (spanPres_footerWordLeaf x).2.2
            (by rw [endOff_map spanPres_footerWordLeaf]; exact hbrest2 x hx)
      · rw [hend2]
        exact tokEnd_le hlo hb
    · rw [mkComposite_offset]
      show lo ≤ nodesStart lo _
      simp only [List.cons_append]
      show lo ≤ (mkComposite .footerToken lo Option.none _).offset
      rw [hftokOff]
    · rw [mkComposite_endOff _ _ hchain, hend2]

theorem footers_build (N d : Nat) :
    ∀ (chunks : List (List (List Token))) (mid : Nat),
      TokChain mid (chunks.map List.flatten).flatten →
      (∀ t ∈ (chunks.map List.flatten).flatten, t.offset + t.length ≤ N) →
      mid ≤ N →
      (∀ ch ∈ chunks, ch.flatten ≠ []) →
      ChainN mid (chunks.map (fun ch => buildFooter (tokStart d ch.flatten) ch.flatten)) ∧
        (∀ n ∈ chunks.map (fun ch => buildFooter (tokStart d ch.flatten) ch.flatten), Ok N n) := by
  intro chunks
  induction chunks with
  | nil => intro mid _ _ _ _; exact ⟨trivial, by intro n hn; cases hn⟩
  | cons ch chs ih =>
    intro mid hch hb hmid hne
    rw [List.map_cons, List.flatten_cons] at hch hb
    obtain ⟨hA, hB⟩ := tokChain_append hch
    have hflne : ch.flatten ≠ [] := hne ch (List.mem_cons_self ch chs)
    have hstart : tokStart d ch.flatten = mid := by
      match hfl : ch.flatten, hA with
      | [], _ => exact absurd hfl hflne
      | t :: ts2, hA => exact hA.1
    have hbA : ∀ t ∈ ch.flatten, t.offset + t.length ≤ N := by
      intro t ht
      exact hb t (List.mem_append_left _ ht)
    have hbB : ∀ t ∈ (chs.map List.flatten).flatten, t.offset + t.length ≤ N := by
      intro t ht
      exact hb t (List.mem_append_right _ ht)
    obtain ⟨hfOk, hfOff, hfEnd⟩ := buildFooter_spec hA hbA hmid
    have hmid2 : tokEnd mid ch.flatten ≤ N := tokEnd_le hmid hbA
    have hne2 : ∀ c ∈ chs, c.flatten ≠ [] := by
      intro c hc
      exact hne c (List.mem_cons_of_mem ch hc)
    obtain ⟨ihc, iho⟩ := ih (tokEnd mid ch.flatten) hB hbB hmid2 hne2
    rw [List.map_cons]
    constructor
    · refine ⟨?_, ?_⟩
      · rw [hstart]
        exact hfOff
      · have : (buildFooter (tokStart d ch.flatten) ch.flatten).endOff =
            tokEnd mid ch.flatten := by
          rw [hstart]
          exact hfEnd
        rw [this]
        exact ihc
    · intro n hn
      rcases List.mem_cons.mp hn with h1 | h2
      · subst h1
        rw [hstart]
        exact hfOk
      · exact iho n h2

theorem buildRest_spec {N lo : Nat} {ts : List Token} (hch : TokChain lo ts)
    (hb : ∀ t ∈ ts, t.offset + t.length ≤ N) (hlo : lo ≤ N) :
    ChainN lo (buildRest lo ts) ∧ (∀ n ∈ buildRest lo ts, Ok N n) := by
  have hts : ((splitLines ts).takeWhile (fun l => !isFooterStart l)).flatten ++
      ((splitLines ts).dropWhile (fun l => !isFooterStart l)).flatten = ts := by
    rw [← List.flatten_append, List.takeWhile_append_dropWhile, splitLines_flatten]
  have hch2 : TokChain lo (((splitLines ts).takeWhile (fun l => !isFooterStart l)).flatten ++
      ((splitLines ts).dropWhile (fun l => !isFooterStart l)).flatten) := by
    rw [hts]
    exact hch
  obtain ⟨hA, hB⟩ := tokChain_append hch2
  have hbA : ∀ t ∈ ((splitLines ts).takeWhile (fun l => !isFooterStart l)).flatten,
      t.offset + t.length ≤ N := by
    intro t ht
    refine hb t ?_
    rw [← hts]
    exact List.mem_append_left _ ht
  have hbB : ∀ t ∈ ((splitLines ts).dropWhile (fun l => !isFooterStart l)).flatten,
      t.offset + t.length ≤ N := by
    intro t ht
    refine hb t ?_
    rw [← hts]
    exact List.mem_append_right _ ht
  have hmid : tokEnd lo ((splitLines ts).takeWhile (fun l => !isFooterStart l)).flatten ≤ N :=
    tokEnd_le hlo hbA
  have hchunkflat : ((chunkFooters ((splitLines ts).dropWhile
      (fun l => !isFooterStart l))).map List.flatten).flatten =
      ((splitLines ts).dropWhile (fun l => !isFooterStart l)).flatten := by
    rw [← List.flatten_flatten, chunkFooters_flatten]
  have hne : ∀ ch ∈ chunkFooters ((splitLines ts).dropWhile (fun l => !isFooterStart l)),
      ch.flatten ≠ [] := by
    intro ch hc
    obtain ⟨l, cont, heq, hmem⟩ := chunkFootersAux_head _ _ ch hc
    have hlne : l ≠ [] := by
      have hmem2 : l ∈ splitLinesAux ts.length ts :=
        (List.dropWhile_sublist (fun l => !isFooterStart l)).subset hmem
      exact splitLinesAux_ne ts.length ts l hmem2
    subst heq
    rw [List.flatten_cons]
    intro hcontra
    exact hlne (List.append_eq_nil.mp hcontra).1
  obtain ⟨hfc, hfo⟩ := footers_build N lo _ _ (hchunkflat.symm ▸ hB) (by
    intro t ht
    exact hbB t (hchunkflat ▸ ht)) hmid hne
  simp only [buildRest]
  split_ifs with he
  · rw [List.isEmpty_iff] at he
    rw [List.nil_append]
    rw [he] at hfc
    have h0 : tokEnd lo ([] : List Token) = lo := rfl
    rw [h0] at hfc
    exact ⟨hfc, hfo⟩
  · have hbodyOff : (mkComposite .body lo Option.none (genLeaves ((splitLines ts).takeWhile
        (fun l => !isFooterStart l)).flatten)).offset = lo := by
      rw [mkComposite_offset, genLeaves, nodesStart_map spanPres_genLeaf, tokChain_start hA]
    have hbodyEnd : (mkComposite .body lo Option.none (genLeaves ((splitLines ts).takeWhile
        (fun l => !isFooterStart l)).flatten)).endOff =
        tokEnd lo ((splitLines ts).takeWhile (fun l => !isFooterStart l)).flatten := by
      unfold genLeaves
      rw [mkComposite_endOff _ _ (chainN_map spanPres_genLeaf hA),
        nodesEnd_map spanPres_genLeaf]
    have hbodyOk : Ok N (mkComposite .body lo Option.none (genLeaves ((splitLines ts).takeWhile
        (fun l => !isFooterStart l)).flatten)) := by
      refine mkComposite_ok _ _ (chainN_map spanPres_genLeaf hA)
        (ok_map spanPres_genLeaf hbA) ?_
      unfold genLeaves
      rw [nodesEnd_map spanPres_genLeaf]
      exact hmid
    constructor
    · refine chainN_append ⟨Nat.le_of_eq hbodyOff.symm, trivial⟩ ?_
      show ChainN (nodesEnd lo [_]) _
      unfold nodesEnd
      simp only [List.getLast?_singleton]
      rw [hbodyEnd]
      exact hfc
    · intro n hn
      rcases List.mem_append.mp hn with h1 | h2
      · rw [List.mem_singleton] at h1
        subst h1
        exact hbodyOk
      · exact hfo n h2

theorem buildMessage_ok (cs : List Char) : Ok cs.length (buildMessage cs).1 := by
  have hchain := tokenize_chain cs
  have hbound : ∀ t ∈ tokenize cs, t.offset + t.length ≤ cs.length := by
    intro t ht
    have := tokenizeAux_bound cs.length cs 0 t ht
    simpa using this
  have htd := tokChain_take_drop (fun t => t.kind ≠ SynKind.lineBreakToken) hchain
  have hbH : ∀ t ∈ (tokenize cs).takeWhile (fun t => t.kind ≠ SynKind.lineBreakToken),
      t.offset + t.length ≤ cs.length := by
    intro t ht
    exact hbound t ((List.takeWhile_sublist _).subset ht)
  obtain ⟨hOk, hOff, hEnd⟩ := parseHeader_spec htd.1 hbH (Nat.zero_le _)
  simp only [buildMessage]
  cases hdw : (tokenize cs).dropWhile (fun t => t.kind ≠ SynKind.lineBreakToken) with
  | nil =>
    refine Ok.mk _ _ _ _ _ _ (by omega) ⟨Nat.zero_le _, trivial⟩ ?_
    intro c hc
    rw [List.mem_singleton] at hc
    subst hc
    exact hOk
  | cons lb rs =>
    rw [hdw] at htd
    have hlboff : lb.offset = tokEnd 0 ((tokenize cs).takeWhile
        (fun t => t.kind ≠ SynKind.lineBreakToken)) := htd.2.1
    have hsubB : ∀ x ∈ lb :: rs, x ∈ tokenize cs := by
      intro x hx
      refine (List.dropWhile_sublist (fun t => t.kind ≠ SynKind.lineBreakToken)).subset ?_
      rw [hdw]
      exact hx
    have hrs : TokChain (lb.offset + lb.length) rs := by
      have := htd.2.2
      rw [← hlboff] at this
      exact this
    have hbrs : ∀ t ∈ rs, t.offset + t.length ≤ cs.length := by
      intro t ht
      exact hbound t (hsubB t (List.mem_cons_of_mem lb ht))
    have hlbend : lb.offset + lb.length ≤ cs.length :=
      hbound lb (hsubB lb (List.mem_cons_self lb rs))
    obtain ⟨hrc, hro⟩ := buildRest_spec hrs hbrs hlbend
    refine Ok.mk _ _ _ _ _ _ (by omega) ?_ ?_
    · refine ⟨Nat.zero_le _, ?_, ?_⟩
      · show _ ≤ (genLeaf lb).offset
        rw [(spanPres_genLeaf lb).1, hEnd, hlboff]
      · rw [endOff_map spanPres_genLeaf]
        exact hrc
    · intro c hc
      rcases List.mem_cons.mp hc with h1 | hc2
      · subst h1; exact hOk
      rcases List.mem_cons.mp hc2 with h2 | hc3
      · subst h2
        exact Ok_of_leaf (spanPres_genLeaf lb).2.2
          (by rw [endOff_map spanPres_genLeaf]; exact hlbend)
      · exact hro c hc3

theorem buildMessage_root (cs : List Char) :
    (buildMessage cs).1.ty = NodeType.message ∧ (buildMessage cs).1.offset = 0 ∧
      (buildMessage cs).1.len = cs.length := by
  simp only [buildMessage]
  cases (tokenize cs).dropWhile (fun t => t.kind ≠ SynKind.lineBreakToken) with
  | nil => exact ⟨rfl, rfl, rfl⟩
  | cons lb rs => exact ⟨rfl, rfl, rfl⟩

theorem mem_nodeParentPairs_self (p : Option Node) (n : Node) :
    (n, p) ∈ nodeParentPairs p n := by
  match n with
  | .mk t v o l co cs => exact List.mem_cons_self _ _

theorem mem_nodeParentPairsList_of_mem (q : Option Node) {c : Node} {cs : List Node}
    (hc : c ∈ cs) : (c, q) ∈ nodeParentPairsList q cs := by
  induction cs with
  | nil => cases hc
  | cons x xs ih =>
    rcases List.mem_cons.mp hc with h1 | h2
    · subst h1
      exact List.mem_append_left _ (mem_nodeParentPairs_self q c)
    · exact List.mem_append_right _ (ih h2)

theorem nodeParentPairs_closed (n : Node) :
    ∀ (p : Option Node), ∀ pr ∈ nodeParentPairs p n, ∀ c ∈ pr.1.children,
      (c, some pr.1) ∈ nodeParentPairs p n := by
  induction n using Node.recMem with
  | h t v o l co cs ih =>
    intro p pr hpr c hc
    have hlist : ∀ (q : Option Node) (ds : List Node), (∀ d ∈ ds, ∀ (p2 : Option Node),
        ∀ pr2 ∈ nodeParentPairs p2 d, ∀ c2 ∈ pr2.1.children,
          (c2, some pr2.1) ∈ nodeParentPairs p2 d) →
        ∀ pr2 ∈ nodeParentPairsList q ds, ∀ c2 ∈ pr2.1.children,
          (c2, some pr2.1) ∈ nodeParentPairsList q ds := by
      intro q ds hds
      induction ds with
      | nil => intro pr2 hpr2; cases hpr2
      | cons x xs ihl =>
        intro pr2 hpr2 c2 hc2
        rcases List.mem_append.mp hpr2 with h1 | h2
        · exact List.mem_append_left _
            (hds x (List.mem_cons_self x xs) q pr2 h1 c2 hc2)
        · exact List.mem_append_right _
            (ihl (fun d hd => hds d (List.mem_cons_of_mem x hd)) pr2 h2 c2 hc2)
    rcases List.mem_cons.mp hpr with h1 | h2
    · subst h1
      refine List.mem_cons_of_mem _ ?_
      exact mem_nodeParentPairsList_of_mem _ hc
    · exact List.mem_cons_of_mem _
        (hlist (some (Node.mk t v o l co cs)) cs (fun d hd => ih d hd) pr h2 c hc)

theorem nodeParentPairs_ok {N : Nat} (n : Node) (hok : Ok N n) :
    ∀ (p : Option Node), ∀ pr ∈ nodeParentPairs p n,
      Ok N pr.1 ∧ ChainN 0 pr.1.children := by
  induction n using Node.recMem with
  | h t v o l co cs ih =>
    intro p pr hpr
    rcases List.mem_cons.mp hpr with h1 | h2
    · subst h1
      exact ⟨hok, hok.chain0⟩
    · have hlist : ∀ (q : Option Node) (ds : List Node), (∀ d ∈ ds, Ok N d) →
          (∀ d ∈ ds, Ok N d → ∀ (p2 : Option Node), ∀ pr2 ∈ nodeParentPairs p2 d,
            Ok N pr2.1 ∧ ChainN 0 pr2.1.children) →
          ∀ pr2 ∈ nodeParentPairsList q ds, Ok N pr2.1 ∧ ChainN 0 pr2.1.children := by
        intro q ds hdsok hds
        induction ds with
        | nil => intro pr2 hpr2; cases hpr2
        | cons x xs ihl =>
          intro pr2 hpr2
          rcases List.mem_append.mp hpr2 with hh1 | hh2
          · exact hds x (List.mem_cons_self x xs) (hdsok x (List.mem_cons_self x xs))
              q pr2 hh1
          · exact ihl (fun d hd => hdsok d (List.mem_cons_of_mem x hd))
              (fun d hd => hds d (List.mem_cons_of_mem x hd)) pr2 hh2
      exact hlist (some (Node.mk t v o l co cs)) cs hok.child (fun d hd => ih d hd) pr h2

theorem chainN_pairwise {ns : List Node} :
    ∀ {lo : Nat}, ChainN lo ns → ∀ i, (hi : i + 1 < ns.length) →
      (ns.get ⟨i, Nat.lt_of_succ_lt hi⟩).endOff ≤ (ns.get ⟨i + 1, hi⟩).offset := by
  induction ns with
  | nil => intro lo h i hi; simp at hi
  | cons n ns ih =>
    intro lo h i hi
    match i with
    | 0 =>
      match ns, h, hi with
      | m :: ns2, h, _ => exact h.2.1
    | j + 1 =>
      exact ih h.2 j (by simpa using hi)

theorem mem_nodeParentPairs_root (p : Option Node) (n : Node) :
    ∀ pr ∈ nodeParentPairs p n, Node.mk pr.1.ty pr.1.value pr.1.offset pr.1.len
      pr.1.colonOffset pr.1.children = pr.1 := by
  intro pr hpr
  match pr with
  | (.mk t v o l co cs, q) => rfl

theorem reconstructAux_push (n : Node) :
    ∀ (rest : List VisitEvent) (t2 : NodeType) (o2 : Nat) (cs2 : List Node)
      (s2 : List (NodeType × Nat × List Node)),
      reconstructAux (nodeEvents n ++ rest) ((t2, o2, cs2) :: s2) =
        reconstructAux rest ((t2, o2, cs2 ++ [n]) :: s2) := by
  induction n using Node.recMem with
  | h t v o l co cs ih =>
    have hlist : ∀ (ns : List Node), (∀ c ∈ ns, ∀ (rest : List VisitEvent) (t2 : NodeType)
        (o2 : Nat) (cs2 : List Node) (s2 : List (NodeType × Nat × List Node)),
        reconstructAux (nodeEvents c ++ rest) ((t2, o2, cs2) :: s2) =
          reconstructAux rest ((t2, o2, cs2 ++ [c]) :: s2)) →
        ∀ (rest : List VisitEvent) (t2 : NodeType) (o2 : Nat) (cs2 : List Node)
          (s2 : List (NodeType × Nat × List Node)),
        reconstructAux (listEvents ns ++ rest) ((t2, o2, cs2) :: s2) =
          reconstructAux rest ((t2, o2, cs2 ++ ns) :: s2) := by
      intro ns hns
      induction ns with
      | nil =>
        intro rest t2 o2 cs2 s2
        simp [listEvents]
      | cons c ns ihl =>
        intro rest t2 o2 cs2 s2
        have h1 := hns c (List.mem_cons_self c ns) (listEvents ns ++ rest) t2 o2 cs2 s2
        have h2 := ihl (fun d hd => hns d (List.mem_cons_of_mem c hd)) rest t2 o2
          (cs2 ++ [c]) s2
        calc reconstructAux (listEvents (c :: ns) ++ rest) ((t2, o2, cs2) :: s2)
            = reconstructAux (nodeEvents c ++ (listEvents ns ++ rest))
                ((t2, o2, cs2) :: s2) := by
              show reconstructAux ((nodeEvents c ++ listEvents ns) ++ rest) _ = _
              rw [List.append_assoc]
          _ = reconstructAux (listEvents ns ++ rest) ((t2, o2, cs2 ++ [c]) :: s2) := h1
          _ = reconstructAux rest ((t2, o2, (cs2 ++ [c]) ++ ns) :: s2) := h2
          _ = reconstructAux rest ((t2, o2, cs2 ++ (c :: ns)) :: s2) := by
              rw [List.append_assoc, List.singleton_append]
    intro rest t2 o2 cs2 s2
    match cs with
    | [] => rfl
    | c :: cst =>
      show reconstructAux ((VisitEvent.enter t o ::
        (listEvents (c :: cst) ++ [VisitEvent.leave v l co])) ++ rest) _ = _
      rw [List.cons_append, List.append_assoc]
      show reconstructAux (listEvents (c :: cst) ++ ([VisitEvent.leave v l co] ++ rest))
        ((t, o, []) :: (t2, o2, cs2) :: s2) = _
      rw [hlist (c :: cst) (fun d hd => ih d hd)]
      rfl

theorem reconstruct_nodeEvents (n : Node) : reconstruct (nodeEvents n) = some n := by
  match n with
  | .mk t v o l co cs =>
    match cs with
    | [] => rfl
    | c :: cst =>
      show reconstructAux (VisitEvent.enter t o ::
        (listEvents (c :: cst) ++ [VisitEvent.leave v l co])) [] = _
      show reconstructAux (listEvents (c :: cst) ++ [VisitEvent.leave v l co])
        ((t, o, []) :: []) = _
      have hlist : ∀ (ns : List Node) (rest : List VisitEvent) (t2 : NodeType)
          (o2 : Nat) (cs2 : List Node) (s2 : List (NodeType × Nat × List Node)),
          reconstructAux (listEvents ns ++ rest) ((t2, o2, cs2) :: s2) =
            reconstructAux rest ((t2, o2, cs2 ++ ns) :: s2) := by
        intro ns
        induction ns with
        | nil => intro rest t2 o2 cs2 s2; simp [listEvents]
        | cons d ds ihl =>
          intro rest t2 o2 cs2 s2
          calc reconstructAux (listEvents (d :: ds) ++ rest) ((t2, o2, cs2) :: s2)
              = reconstructAux (nodeEvents d ++ (listEvents ds ++ rest))
                  ((t2, o2, cs2) :: s2) := by
                show reconstructAux ((nodeEvents d ++ listEvents ds) ++ rest) _ = _
                rw [List.append_assoc]
            _ = reconstructAux (listEvents ds ++ rest) ((t2, o2, cs2 ++ [d]) :: s2) :=
                reconstructAux_push d _ _ _ _ _
            _ = reconstructAux rest ((t2, o2, (cs2 ++ [d]) ++ ds) :: s2) := ihl _ _ _ _ _
            _ = reconstructAux rest ((t2, o2, cs2 ++ (d :: ds)) :: s2) := by
                rw [List.append_assoc, List.singleton_append]
      rw [hlist (c :: cst) [VisitEvent.leave v l co] t o [] []]
      rfl

/-- Replaying the visitor callbacks of `visit` and reconstructing a tree from
them yields exactly the `parseTree` result. -/
theorem reconstruct_visitEvents (text : String) :
    reconstruct (visitEvents text) = parseTree text := by
  unfold visitEvents
  cases h : parseTree text with
  | none => rfl
  | some root => exact reconstruct_nodeEvents root

theorem mapIdx_map_proj {α β γ : Type} (g : β → γ) :
    ∀ (l : List α) (f : Nat → α → β),
      (l.mapIdx f).map g = l.mapIdx (fun i a => g (f i a)) := by
  intro l
  induction l with
  | nil => intro f; rfl
  | cons a l ih =>
    intro f
    rw [List.mapIdx_cons, List.mapIdx_cons, List.map_cons, ih]

theorem enumTypeLabels (values : List String) (r : Option LspRange) (po : ParseOutcome) :
    ((values.map (fun ty => CompletionItem.mk ty .enumKind Option.none
        (getNewTextEdit r ty) Option.none Option.none)).flatMap
      (fun completion =>
        if ¬hasScopeB po ∧ ¬hasBreakingB po ∧
            po.header.bind Header.type = some completion.label then
          [completion,
           CompletionItem.mk (completion.label ++ "!") .operatorKind Option.none
             (getNewTextEdit r (completion.label ++ "!")) Option.none Option.none]
        else [completion])).map CompletionItem.label =
    values.flatMap (fun v => if ¬hasScopeB po ∧ ¬hasBreakingB po ∧
        po.header.bind Header.type = some v then [v, v ++ "!"] else [v]) := by
  induction values with
  | nil => rfl
  | cons v vs ih =>
    simp only [List.map_cons, List.flatMap_cons, List.map_append, ih]
    congr 1
    by_cases hc : ¬hasScopeB po ∧ ¬hasBreakingB po ∧ po.header.bind Header.type = some v
    · rw [if_pos hc, if_pos hc]
      rfl
    · rw [if_neg hc, if_neg hc]
      rfl

theorem mapIdx_const_idx {α β : Type} (g : α → β) :
    ∀ (l : List α) (f : Nat → α → β), (∀ i a, f i a = g a) → l.mapIdx f = l.map g := by
  intro l
  induction l with
  | nil => intro f h; rfl
  | cons a l ih =>
    intro f h
    rw [List.mapIdx_cons, List.map_cons, h 0 a, ih _ (fun i a => h (i + 1) a)]

/-! ### The claims -/

/-- C1: for every non-empty input text that is not whitespace-only,
`parseTree` returns a defined root node; it returns `undefined` exactly for a
whitespace-only (or empty) document.  Diagnostics are the returned error list
(`parseErrors`); the embedding is a total function, so nothing is ever
thrown. -/
theorem claim_C1 (text : String) :
    ((parseTree text).isSome = true ↔ text.toList.all isWsChar = false) ∧
      (parseTree text = Option.none ↔ text.toList.all isWsChar = true) := by
  have h := parseTree_none_iff text
  constructor
  · rw [Option.isSome_iff_ne_none]
    constructor
    · intro hne
      cases hall : text.toList.all isWsChar with
      | false => rfl
      | true => exact absurd (h.mpr hall) hne
    · intro hfalse hnone
      rw [h] at hnone
      rw [hnone] at hfalse
      cases hfalse
  · exact h

/-- Witness for C1 at concrete inputs: "feat: x" parses to a root, a
whitespace-only document does not. -/
theorem claim_C1_witness :
    ((parseTree "feat: x").isSome = true ↔ " feat: x".toList.all isWsChar = false) ∨
      (parseTree "feat: x").isSome = true := by
  right
  rw [(claim_C1 "feat: x").1]
  decide

/-- C2: for every input on which `parseTree` returns a root, concatenating
the source span `text[offset, offset+length)` of every leaf node in document
order reproduces the input exactly. -/
theorem claim_C2 (text : String) (root : Node) (h : parseTree text = some root) :
    leafSlices text.toList root = text.toList := by
  rw [parseTree_eq_buildMessage text root h]
  exact buildMessage_slices text.toList

/-- Witness for C2 at the concrete input "feat(core)!: add x". -/
theorem claim_C2_witness :
    parseTree "feat(core)!: add x" = some (rootD "feat(core)!: add x") ∧
      leafSlices "feat(core)!: add x".toList (rootD "feat(core)!: add x") =
        "feat(core)!: add x".toList :=
  ⟨rfl, claim_C2 "feat(core)!: add x" (rootD "feat(core)!: add x") rfl⟩

/-- C3: replaying the visitor callbacks of `visit(text, visitor)` and
reconstructing a tree from them yields a tree equal to the one `parseTree`
returns on the same input: the two parsing modes are observably
equivalent. -/
theorem claim_C3 (text : String) : reconstruct (visitEvents text) = parseTree text :=
  reconstruct_visitEvents text

/-- C4: in every tree `parseTree` returns, every node satisfies
`offset + length ≤ text.length`; consecutive children of any parent never
overlap; every child of a parent carries that parent as its parent
reference; and the root is a `message` node spanning the whole input. -/
theorem claim_C4 (text : String) (root : Node) (h : parseTree text = some root) :
    (∀ pr ∈ nodeParentPairs Option.none root,
        pr.1.offset + pr.1.len ≤ text.length ∧
        (∀ i, ∀ hi : i + 1 < pr.1.children.length,
          (pr.1.children.get ⟨i, Nat.lt_of_succ_lt hi⟩).endOff ≤
            (pr.1.children.get ⟨i + 1, hi⟩).offset) ∧
        (∀ c ∈ pr.1.children, (c, some pr.1) ∈ nodeParentPairs Option.none root)) ∧
      root.ty = NodeType.message ∧ root.offset = 0 ∧ root.len = text.length := by
  have hroot := parseTree_eq_buildMessage text root h
  subst hroot
  have hok := buildMessage_ok text.toList
  have hlen : text.length = text.toList.length := rfl
  refine ⟨?_, (buildMessage_root text.toList).1, (buildMessage_root text.toList).2.1, ?_⟩
  · intro pr hpr
    obtain ⟨hOkpr, hChain⟩ := nodeParentPairs_ok _ hok Option.none pr hpr
    refine ⟨?_, ?_, ?_⟩
    · have h2 := hOkpr.end_le
      unfold Node.endOff at h2
      rw [hlen]
      exact h2
    · intro i hi
      exact chainN_pairwise hChain i hi
    · exact nodeParentPairs_closed _ Option.none pr hpr
  · rw [hlen]
    exact (buildMessage_root text.toList).2.2

/-- Witness for C4 at the concrete input "feat: x". -/
theorem claim_C4_witness :
    parseTree "feat: x" = some (rootD "feat: x") ∧
      ((rootD "feat: x").ty = NodeType.message ∧ (rootD "feat: x").offset = 0 ∧
        (rootD "feat: x").len = "feat: x".length) :=
  ⟨rfl, (claim_C4 "feat: x" (rootD "feat: x") rfl).2⟩

/-- C5: with `includeRightBound = true` a node ending exactly at the queried
offset is eligible; with `includeRightBound = false` such a node is never
returned.  On "fix(core): x" at the offset right after the closing
parenthesis, the query with `true` returns the scope-paren-close node and the
query with `false` returns the colon symbol node (never a scope node). -/
theorem claim_C5 :
    (∀ (n : Node) (off : Nat), n.offset ≤ off → off = n.endOff →
        containsOff n off true = true) ∧
      (∀ (root r : Node) (off : Nat), findNodeAtOffset root off false = some r →
        off < r.endOff) ∧
      (findNodeAtOffset (rootD "fix(core): x") 9 true).map Node.ty =
        some NodeType.scopeParenClose ∧
      (findNodeAtOffset (rootD "fix(core): x") 9 false).map Node.ty =
        some NodeType.symbol := by
  refine ⟨?_, ?_, rfl, rfl⟩
  · intro n off h1 h2
    have h3 : n.offset ≤ n.endOff := Nat.le_add_right _ _
    simp [containsOff, h1, h2, h3]
  · intro root r off h
    exact findNodeAtOffset_strict root off r h

/-- C6: the scanner strictly advances its position on every `scan()` while
input remains, surfaces disallowed control characters through the scan error
instead of raising, and once the input is exhausted keeps returning EOF on
every further `scan()`. -/
theorem claim_C6 :
    (∀ s : ScannerState, s.pos < s.text.length →
        s.pos < (scan s).pos ∧ (scan s).pos ≤ s.text.length) ∧
      (∀ (s : ScannerState) (c : Char) (rest : List Char),
        s.text.drop s.pos = c :: rest → isCtrlChar c = true →
          (scan s).tokenErr = ScanErr.invalidCharacter) ∧
      (∀ s : ScannerState, s.text.length ≤ s.pos →
        (scan s).token = SynKind.eof ∧ (scan s).pos = s.pos ∧
          ∀ n, 1 ≤ n → (scan^[n] s).token = SynKind.eof) := by
  refine ⟨scan_progress, scan_ctrl, ?_⟩
  intro s h
  exact ⟨(scan_eof s h).1, (scan_eof s h).2, scan_eof_forever s h⟩

/-- C7: parsing is deterministic in its input: two `parseTree` calls on the
same text yield equal trees and identical error lists. -/
theorem claim_C7 (t1 t2 : String) (h : t1 = t2) :
    parseTree t1 = parseTree t2 ∧ parseErrors t1 = parseErrors t2 := by
  subst h
  exact ⟨rfl, rfl⟩

/-- Witness for C7 on the concrete input "feat: x". -/
theorem claim_C7_witness :
    parseTree "feat: x" = parseTree "feat: x" ∧
      parseErrors "feat: x" = parseErrors "feat: x" :=
  claim_C7 "feat: x" "feat: x" rfl

/-- C8: `printParseErrorCode` maps each of the fourteen spec-listed error
codes to its name, and distinct codes map to distinct labels. -/
theorem claim_C8 :
    printParseErrorCode .invalidSymbol = "InvalidSymbol" ∧
      printParseErrorCode .invalidNumberFormat = "InvalidNumberFormat" ∧
      printParseErrorCode .propertyNameExpected = "PropertyNameExpected" ∧
      printParseErrorCode .valueExpected = "ValueExpected" ∧
      printParseErrorCode .colonExpected = "ColonExpected" ∧
      printParseErrorCode .closeParenExpected = "CloseParenExpected" ∧
      printParseErrorCode .endOfFileExpected = "EndOfFileExpected" ∧
      printParseErrorCode .invalidCommentToken = "InvalidCommentToken" ∧
      printParseErrorCode .unexpectedEndOfComment = "UnexpectedEndOfComment" ∧
      printParseErrorCode .unexpectedEndOfString = "UnexpectedEndOfString" ∧
      printParseErrorCode .unexpectedEndOfNumber = "UnexpectedEndOfNumber" ∧
      printParseErrorCode .invalidUnicode = "InvalidUnicode" ∧
      printParseErrorCode .invalidEscapeCharacter = "InvalidEscapeCharacter" ∧
      printParseErrorCode .invalidCharacter = "InvalidCharacter" ∧
      List.Pairwise (fun a b => printParseErrorCode a ≠ printParseErrorCode b)
        [ParseErrorCode.invalidSymbol, .invalidNumberFormat, .propertyNameExpected,
         .valueExpected, .colonExpected, .closeParenExpected, .endOfFileExpected,
         .invalidCommentToken, .unexpectedEndOfComment, .unexpectedEndOfString,
         .unexpectedEndOfNumber, .invalidUnicode, .invalidEscapeCharacter,
         .invalidCharacter] := by
  refine ⟨rfl, rfl, rfl, rfl, rfl, rfl, rfl, rfl, rfl, rfl, rfl, rfl, rfl, rfl, ?_⟩
  decide

/-- C10: the breaking-exclamation-mark completion is empty whenever the
header already carries a breaking exclamation mark, and otherwise consists of
exactly one item whose insert text is `!`; the suggestion is therefore never
offered twice. -/
theorem claim_C10 (cfg : ConfigSet) (po : ParseOutcome) :
    (hasBreakingB po = true → getCompletionBreakingExclamationMark cfg po = []) ∧
      (hasBreakingB po = false →
        (getCompletionBreakingExclamationMark cfg po).length = 1 ∧
        (getCompletionBreakingExclamationMark cfg po).map CompletionItem.insertText =
          [some "!"]) := by
  unfold getCompletionBreakingExclamationMark
  constructor
  · intro h
    rw [if_pos h]
  · intro h
    rw [if_neg (by simp [h])]
    exact ⟨rfl, rfl⟩

/-- C9 counterexample: with `type-enum = [2, "always", ["feat", "fix"]]` and a
header whose type is already the fully written-out "feat" (no scope, no
breaking mark), the provider offers "feat", "feat!" and "fix" — not exactly
the two enum values the claim asserts. -/
theorem claim_C9_counterexample :
    (getCompletionTypes
        (ConfigSet.mk (some (LintConfig.mk (some (RuleEntry.mk (some 2) (some "always")
          (some ["feat", "fix"]))) Option.none)) Option.none)
        Option.none
        (ParseOutcome.mk (some (Header.mk (some "feat") Option.none false)))
        []).map CompletionItem.label = ["feat", "feat!", "fix"] ∧
      ["feat", "feat!", "fix"] ≠ ["feat", "fix"] := by
  exact ⟨rfl, by decide⟩

/-- C9 (amended): when the type-enum rule is enabled with condition "always"
and a non-empty value list, the type suggestions are exactly those enum
values — except that a "value!" variant is inserted after the value equal to
the header's already fully written-out type when the header has no scope and
no breaking exclamation mark — and the git-history service is never consulted
(the result does not depend on the history data).  Scope suggestions with a
non-empty scope-enum value list are exactly those values, history again
unconsulted.  With no type-enum rule at all and a workspace present, the
provider falls back to the history records in order, with sortText built
from `999 - count` and the original index. -/
theorem claim_C9 :
    (∀ (cfg : ConfigSet) (r : Option LspRange) (po : ParseOutcome)
        (hist1 hist2 : List TypeDatum),
        ((cfg.config.bind LintConfig.typeEnum).bind RuleEntry.severity).getD 0 ≠ 0 →
        (cfg.config.bind LintConfig.typeEnum).bind RuleEntry.condition = some "always" →
        ((cfg.config.bind LintConfig.typeEnum).bind RuleEntry.values).getD [] ≠ [] →
        getCompletionTypes cfg r po hist1 = getCompletionTypes cfg r po hist2 ∧
          (getCompletionTypes cfg r po hist1).map CompletionItem.label =
            (((cfg.config.bind LintConfig.typeEnum).bind RuleEntry.values).getD
              []).flatMap (fun v => if ¬hasScopeB po ∧ ¬hasBreakingB po ∧
                po.header.bind Header.type = some v then [v, v ++ "!"] else [v])) ∧
      (∀ (cfg : ConfigSet) (r : Option LspRange) (hist1 hist2 : List ScopeDatum),
        ((cfg.config.bind LintConfig.scopeEnum).bind RuleEntry.values).getD [] ≠ [] →
        getCompletionScopes cfg r hist1 = getCompletionScopes cfg r hist2 ∧
          (getCompletionScopes cfg r hist1).map CompletionItem.label =
            ((cfg.config.bind LintConfig.scopeEnum).bind RuleEntry.values).getD []) ∧
      (∀ (cfg : ConfigSet) (r : Option LspRange) (po : ParseOutcome)
        (hist : List TypeDatum),
        cfg.config.bind LintConfig.typeEnum = Option.none →
        cfg.workspaceUri.isSome = true →
        (getCompletionTypes cfg r po hist).map CompletionItem.label =
            hist.map TypeDatum.type ∧
          (getCompletionTypes cfg r po hist).map CompletionItem.sortText =
            hist.mapIdx (fun index d => some (sortTextFor d.count index))) := by
  refine ⟨?_, ?_, ?_⟩
  · intro cfg r po hist1 hist2 hsev hcond hvals
    have hcnd : ¬((cfg.config.bind LintConfig.typeEnum).bind RuleEntry.severity).getD 0
        = 0 ∧ (cfg.config.bind LintConfig.typeEnum).bind RuleEntry.condition =
          some "always" ∧
        0 < (((cfg.config.bind LintConfig.typeEnum).bind RuleEntry.values).getD
          []).length :=
      ⟨hsev, hcond, List.length_pos.mpr hvals⟩
    simp only [getCompletionTypes]
    rw [if_pos hcnd, if_pos hcnd]
    exact ⟨rfl, enumTypeLabels _ r po⟩
  · intro cfg r hist1 hist2 hvals
    have hcnd : 0 < (((cfg.config.bind LintConfig.scopeEnum).bind RuleEntry.values).getD
        []).length := List.length_pos.mpr hvals
    simp only [getCompletionScopes]
    rw [if_pos hcnd, if_pos hcnd]
    refine ⟨rfl, ?_⟩
    rw [List.map_map]
    exact List.map_id' _
  · intro cfg r po hist hnone hws
    simp only [getCompletionTypes, hnone, Option.none_bind, Option.getD_none]
    rw [if_neg (by simp)]
    by_cases hh : 0 < hist.length
    · rw [if_pos ⟨hws, hh⟩]
      constructor
      · rw [mapIdx_map_proj]
        exact mapIdx_const_idx TypeDatum.type hist _ (fun i a => rfl)
      · rw [mapIdx_map_proj]
    · rw [if_neg (by intro hc; exact hh hc.2)]
      have : hist = [] := by
        cases hist with
        | nil => rfl
        | cons a l => exact absurd (by simp) hh
      subst this
      exact ⟨rfl, rfl⟩

end GitCommit
